import Mathlib

/-!
# lambda-cc: argument classification and command reconstruction

A shallow embedding of `lambda-cc.c`.  A C string is the list of its
characters (the terminating NUL is left implicit), `argv` is a list of C
strings and `argc` is its length.  Allocation is assumed to succeed, so the
out-of-memory exits of the program are not part of the model.
-/

namespace LambdaCC

/-- A C string: its characters up to, and without, the terminating NUL. -/
abbrev CStr := List Char

/-- The `lcc_source_t` record. -/
structure lcc_source_t where
  file : CStr
  index : Nat
  cpp : Bool
deriving DecidableEq

/-- The `lcc_output_t` record. -/
structure lcc_output_t where
  output : CStr
  index : Nat
  aout : Bool
deriving DecidableEq

/-- The `lcc_string_t` buffer, held as the text it contains: `used` is the
length of the text plus one for the NUL, `allocated` is not modelled. -/
structure lcc_string_t where
  buffer : CStr
deriving DecidableEq

/-- The `used` field of a buffer: "always use the null byte". -/
def lcc_string_t.used (string : lcc_string_t) : Nat := string.buffer.length + 1

/-- The function `lcc_string_init`: the empty text. -/
def lcc_string_init : lcc_string_t := ⟨[]⟩

/-- The function `lcc_string_appendf`, given the text the format expands to: the text is
written over the terminator at `used - 1`. -/
def lcc_string_appendf (string : lcc_string_t) (text : CStr) : lcc_string_t :=
  ⟨string.buffer ++ text⟩

/-- The trimming step of `main`, `if (s.used >= 2) s.buffer[s.used - 2] = 0`:
the last character of the text is overwritten by a NUL. -/
def lcc_string_trim (string : lcc_string_t) : lcc_string_t :=
  if string.used ≥ 2 then ⟨string.buffer.dropLast⟩ else string

/-- The call `strstr(hay, needle)`: the tail of `hay` that starts at the first
occurrence of `needle`, `none` for a null result. -/
def strstr : CStr → CStr → Option CStr
  | [], needle => if needle.isPrefixOf [] then some [] else none
  | c :: hay, needle =>
    if needle.isPrefixOf (c :: hay) then some (c :: hay) else strstr hay needle

/-- The call `strrchr(s, c)`: the offset of the last occurrence of `c` in `s`. -/
def strrchr : CStr → Char → Option Nat
  | [], _ => none
  | x :: s, c =>
    match strrchr s c with
    | some k => some (k + 1)
    | none => if x = c then some 0 else none

/-- The table `exts` of `lcc_source_find`, in its order. -/
def exts : List CStr :=
  [ ['.', 'c'], ['.', 'C'],
    ['.', 'c', 'c'], ['.', 'c', 'x'], ['.', 'c', 'x', 'x'], ['.', 'c', 'p', 'p'],
    ['.', 'C', 'C'], ['.', 'C', 'X'], ['.', 'C', 'X', 'X'], ['.', 'C', 'P', 'P'] ]

/-- The `while (find)` loop of `lcc_source_find` for one extension: `some true`
when an occurrence reaches the end of the string (the `strcmp` succeeds),
`some false` when the rescans run out of occurrences, and `none` when the
iteration budget `fuel` is used up before the loop ends. -/
def lcc_source_scan : Nat → CStr → CStr → Option Bool
  | 0, _, _ => none
  | fuel + 1, find, ext =>
    if find = ext then some true
    else
      match strstr (find.drop ext.length) ext with
      | none => some false
      | some next => lcc_source_scan fuel next ext

/-- The `PP_ARRAY_FOR(ext, exts)` loop of `lcc_source_find` for one argument:
the index `ext` at which the function returns, when it does.  The remaining
table entries are `rest`, the first of them having index `ext`. -/
def lcc_source_exts (arg : CStr) : Nat → List CStr → Option Nat
  | _, [] => none
  | ext, e :: rest =>
    match strstr arg e with
    | none => lcc_source_exts arg (ext + 1) rest
    | some find =>
      match lcc_source_scan (arg.length + 1) find e with
      | some true => some ext
      | _ => lcc_source_exts arg (ext + 1) rest

/-- The `for (int i = 0; i < argc; i++)` loop of `lcc_source_find`, with `n`
iterations left and the counter at `i`. -/
def lcc_source_find_loop (argv : List CStr) : Nat → Nat → Option lcc_source_t
  | 0, _ => none
  | n + 1, i =>
    match lcc_source_exts (argv.getD i []) 0 exts with
    | some ext => some { file := argv.getD i [], index := i, cpp := decide (ext ≥ 1) }
    | none => lcc_source_find_loop argv n (i + 1)

/-- The call `lcc_source_find(argc, argv, &source)`: the descriptor written on success,
`none` for `false`. -/
def lcc_source_find (argv : List CStr) : Option lcc_source_t :=
  lcc_source_find_loop argv argv.length 0

/-- The literal `"-o"`. -/
def str_o : CStr := ['-', 'o']

/-- The literal `"-c"`. -/
def str_c : CStr := ['-', 'c']

/-- The literal `"a.out"`. -/
def str_aout : CStr := ['a', '.', 'o', 'u', 't']

/-- The loop of `lcc_output_find`, with `n` iterations left and the counter at
`i`; `output` is the record the caller passed in. -/
def lcc_output_find_loop (argv : List CStr) (output : lcc_output_t) :
    Nat → Nat → Option lcc_output_t
  | 0, _ => none
  | n + 1, i =>
    if argv.getD i [] ≠ str_o then lcc_output_find_loop argv output n (i + 1)
    else if i + 1 ≥ argv.length then none
    else some { output with index := i, output := argv.getD (i + 1) [] }

/-- The call `lcc_output_find(argc, argv, &output)`: the record after a successful call,
`none` for `false`. -/
def lcc_output_find (argv : List CStr) (output : lcc_output_t) : Option lcc_output_t :=
  lcc_output_find_loop argv output argv.length 0

/-- The second loop of `cmd_sanitize`: a backslash (character 92) is written
before every double quote (character 34). -/
def cmd_sanitize_copy : CStr → CStr
  | [] => []
  | c :: cmd =>
    if c = Char.ofNat 34 then Char.ofNat 92 :: c :: cmd_sanitize_copy cmd
    else c :: cmd_sanitize_copy cmd

/-- The call `cmd_sanitize(cmd)`: a copy of `cmd` when it has no double quote,
the escaped copy otherwise. -/
def cmd_sanitize (cmd : CStr) : CStr :=
  if cmd.count (Char.ofNat 34) = 0 then cmd else cmd_sanitize_copy cmd

/-- How `main` ends: `return 1`, or `return system(cmd)`. -/
inductive lcc_exit where
  | fail : lcc_exit
  | system : CStr → lcc_exit
deriving DecidableEq

/-- The locals `output` of `main` after the call of `lcc_output_find`: the
record starts as `{ .aout = false }` and is defaulted to `a.out` on failure. -/
def main_output (argv : List CStr) : lcc_output_t :=
  match lcc_output_find argv { output := [], index := 0, aout := false } with
  | some output => output
  | none => { output := str_aout, index := 0, aout := true }

/-- The local `stop` of `main`: "Stop at the -o". -/
def main_stop (argv : List CStr) : Nat :=
  if (main_output argv).aout then argv.length else (main_output argv).index

/-- The body shared by the two argument loops of `main`, with `n` iterations
left and the counter at `i`: the state is the buffer being filled and
`compile_only`. -/
def main_args_loop (argv : List CStr) (source : lcc_source_t) :
    Nat → Nat → lcc_string_t × Bool → lcc_string_t × Bool
  | 0, _, st => st
  | n + 1, i, st =>
    if i = source.index then main_args_loop argv source n (i + 1) st
    else
      main_args_loop argv source n (i + 1)
        (lcc_string_appendf st.1 (argv.getD i [] ++ [' ']),
         if argv.getD i [] = str_c then true else st.2)

/-- The first loop of `main`, `for (i = 0; i < stop; i++)`: `args_before`
before it is trimmed, and `compile_only`. -/
def main_before_loop (argv : List CStr) (source : lcc_source_t) : lcc_string_t × Bool :=
  main_args_loop argv source (main_stop argv) 0 (lcc_string_init, false)

/-- The buffer `args_before` as the shell line uses it. -/
def main_args_before (argv : List CStr) (source : lcc_source_t) : lcc_string_t :=
  lcc_string_trim (main_before_loop argv source).1

/-- The second loop of `main`, `for (i = stop; i < count; i++)`: `args_after`
when the loop ends, and `compile_only`. -/
def main_after_loop (argv : List CStr) (source : lcc_source_t) : lcc_string_t × Bool :=
  main_args_loop argv source (argv.length - main_stop argv) (main_stop argv)
    (lcc_string_init, (main_before_loop argv source).2)

/-- The `srcdir` step of `main`: the source path is cut at its last `/` and
`-I<srcdir> ` is appended to `args_after`. -/
def main_srcdir (source : lcc_source_t) (args_after : lcc_string_t) : lcc_string_t :=
  match strrchr source.file '/' with
  | some dirsep =>
    lcc_string_appendf args_after (['-', 'I'] ++ source.file.take dirsep ++ [' '])
  | none => args_after

/-- The buffer `args_after` as the shell line uses it. -/
def main_args_after (argv : List CStr) (source : lcc_source_t) : lcc_string_t :=
  lcc_string_trim (main_srcdir source (main_after_loop argv source).1)

/-- The local `compile_only` of `main` when the shell line is built. -/
def main_compile_only (argv : List CStr) (source : lcc_source_t) : Bool :=
  (main_after_loop argv source).2

/-- The local `lang` of `main`. -/
def main_lang (source : lcc_source_t) : CStr :=
  if source.cpp then ['c', '+', '+'] else ['c']

/-- The buffer `shell` of `main` after the `#else` branch: the text of
`"%s %s | %s -x%s %s %s -o %s.o -"` or of `"%s %s | %s -x%s %s %s -"`. -/
def main_shell (lambdapp cc : CStr) (argv : List CStr) (source : lcc_source_t) :
    lcc_string_t :=
  if main_compile_only argv source = true ∧ (main_output argv).aout = true then
    lcc_string_appendf lcc_string_init
      (lambdapp ++ [' '] ++ source.file ++ [' ', '|', ' '] ++ cc ++ [' ', '-', 'x']
        ++ main_lang source ++ [' '] ++ (main_args_before argv source).buffer ++ [' ']
        ++ (main_args_after argv source).buffer ++ [' ', '-', 'o', ' '] ++ source.file
        ++ ['.', 'o', ' ', '-'])
  else
    lcc_string_appendf lcc_string_init
      (lambdapp ++ [' '] ++ source.file ++ [' ', '|', ' '] ++ cc ++ [' ', '-', 'x']
        ++ main_lang source ++ [' '] ++ (main_args_before argv source).buffer ++ [' ']
        ++ (main_args_after argv source).buffer ++ [' ', '-'])

/-- The loop of the branch of `main` without a source file: `" %s"` is
appended for every argument. -/
def main_link_loop (argv : List CStr) : Nat → Nat → lcc_string_t → lcc_string_t
  | 0, _, string => string
  | n + 1, i, string =>
    main_link_loop argv n (i + 1) (lcc_string_appendf string ([' '] ++ argv.getD i []))

/-- The part of `main` that follows the compiler specification (from the
second `argc < 1` test on): `lambdapp` and `cc` are the resolved preprocessor
and compiler, `argv` the arguments that remain. -/
def main_cc (lambdapp cc : CStr) (argv : List CStr) : lcc_exit :=
  if argv.length < 1 then lcc_exit.fail
  else
    match lcc_source_find argv with
    | none =>
      lcc_exit.system
        (main_link_loop argv argv.length 0 (lcc_string_appendf lcc_string_init cc)).buffer
    | some source => lcc_exit.system (cmd_sanitize (main_shell lambdapp cc argv source).buffer)

/-! ## The compiler specification and the head of `main` -/

/-- The double quote, character 34. -/
def dquote : Char := Char.ofNat 34

/-- The single quote, character 39. -/
def squote : Char := Char.ofNat 39

/-- The call `strchr(s, c)`: the offset of the first occurrence of `c` in `s`. -/
def strchr : CStr → Char → Option Nat
  | [], _ => none
  | x :: s, c => if x = c then some 0 else (strchr s c).map (fun k => k + 1)

/-- The locals `end`, `len` and `last` of `lcc_compiler_from_argv` after its
first loop (`last` is the empty text while it is still null). -/
structure lcc_compiler_scan_t where
  end_index : Nat
  len : Nat
  last : CStr
deriving DecidableEq

/-- The first loop of `lcc_compiler_from_argv`, `for (i = 1; i < argc; i++)`,
with `n` iterations left, the counter at `i` and `len` so far: it stops at the
first argument that holds `delim`. -/
def lcc_compiler_scan_loop (argv : List CStr) (delim : Char) :
    Nat → Nat → Nat → lcc_compiler_scan_t
  | 0, _, len => { end_index := 0, len := len, last := [] }
  | n + 1, i, len =>
    if (strchr (argv.getD i []) delim).isSome then
      { end_index := i, len := len + (argv.getD i []).length, last := argv.getD i [] }
    else lcc_compiler_scan_loop argv delim n (i + 1) (len + (argv.getD i []).length)

/-- The locals of `lcc_compiler_from_argv` when its first loop is left, `len`
starting as `strlen(argv[0])`. -/
def lcc_compiler_scan (argv : List CStr) (delim : Char) : lcc_compiler_scan_t :=
  lcc_compiler_scan_loop argv delim (argv.length - 1) 1 (argv.getD 0 []).length

/-- The second loop of `lcc_compiler_from_argv`, `for (i = 1; i < end; i++)`,
with `n` iterations left and the counter at `i`: `argv[i]` and a space are
appended to `cc`. -/
def lcc_compiler_join (argv : List CStr) : Nat → Nat → CStr → CStr
  | 0, _, cc => cc
  | n + 1, i, cc => lcc_compiler_join argv n (i + 1) (cc ++ argv.getD i [] ++ [' '])

/-- The call `lcc_compiler_from_argv(&argc, &argv)`: the string returned
(`none` for null) and the argument list `*pargv` after the call.  For a quoted
specification the string is the text the `strcpy` and `strcat` calls write
into `cc`, a buffer of `(lcc_compiler_scan argv delim).len + 1` bytes; that
text is what the program returns only when it fits the buffer, which
`lcc_compiler_overrun` decides: beyond it the calls write out of bounds and
the behaviour of the program is undefined. -/
def lcc_compiler_from_argv (argv : List CStr) : Option CStr × List CStr :=
  match argv with
  | [] => (none, argv)
  | arg0 :: _ =>
    if arg0.head? = some dquote ∨ arg0.head? = some squote then
      let delim := arg0.headD dquote
      let scan := lcc_compiler_scan argv delim
      if scan.end_index = 0 then (none, argv)
      else
        let last := scan.last.take ((strchr scan.last delim).getD 0)
        let cc := lcc_compiler_join argv (scan.end_index - 1) 1 (arg0.drop 1 ++ [' '])
        (some (cc ++ last), argv.drop scan.end_index)
    else (some arg0, argv)

/-- The `strcpy` and `strcat` calls of `lcc_compiler_from_argv` write beyond
the buffer `cc = calloc(len + 1, 1)`: the text and its terminator take more
than `len + 1` bytes.  The other return paths write to no such buffer. -/
def lcc_compiler_overrun (argv : List CStr) : Bool :=
  match argv with
  | [] => false
  | arg0 :: _ =>
    if arg0.head? = some dquote ∨ arg0.head? = some squote then
      if (lcc_compiler_scan argv (arg0.headD dquote)).end_index = 0 then false
      else
        match (lcc_compiler_from_argv argv).1 with
        | none => false
        | some cc =>
          decide (cc.length + 1 > (lcc_compiler_scan argv (arg0.headD dquote)).len + 1)
    else false

/-- The literal `"--lambda-pp"`. -/
def str_lambda_pp : CStr := ['-', '-', 'l', 'a', 'm', 'b', 'd', 'a', '-', 'p', 'p']

/-- The test `!strncmp(a, b, n)`: the first `n` characters agree. -/
def strncmp_eq (a b : CStr) (n : Nat) : Bool := a.take n == b.take n

/-- The byte `s[i]` of a C string: a character of the text, the terminating NUL
at `i = strlen(s)`, and beyond the terminator the bytes of `past`, the C string
that lies in memory right after `s` (for `argv[0]` of a process, `argv[1]`). -/
def c_byte (s : CStr) (i : Nat) (past : CStr) : Char :=
  if i < s.length then s.getD i (Char.ofNat 0)
  else if i = s.length then Char.ofNat 0
  else past.getD (i - s.length - 1) (Char.ofNat 0)

/-- The C string at the address `s + i`: a tail of the text of `s`, and beyond
the terminator of `s` a tail of `past`, the C string that lies in memory right
after `s`. -/
def c_from (s : CStr) (i : Nat) (past : CStr) : CStr :=
  if i ≤ s.length then s.drop i else past.drop (i - s.length - 1)

/-- The `--lambda-pp` step of `main`: the local `lambdapp` and the argument
list that remains.  The result of `lcc_lambdapp_find` is `found`; the value
of `sizeof("--lambda-pp")` is 12; `past` is the C string that lies in memory
right after `argv[0]`. -/
def main_lambdapp (found : Option CStr) (past : CStr) (argv : List CStr) :
    Option CStr × List CStr :=
  if strncmp_eq str_lambda_pp (argv.getD 0 []) (12 - 1) = true then
    if c_byte (argv.getD 0 []) 12 past ≠ '=' then (some (argv.getD 1 []), argv.drop 2)
    else (some (c_from (argv.getD 0 []) 12 past), argv.drop 1)
  else (found, argv)

/-- The function `main`, `argv` being the arguments after the program name:
`found` is what `lcc_lambdapp_find` returns and `past` the C string that lies
in memory right after `argv[0]`, read when `argv[0][12]` is beyond the
terminator of `argv[0]`. -/
def main (found : Option CStr) (past : CStr) (argv : List CStr) : lcc_exit :=
  if argv.length < 2 then lcc_exit.fail
  else if (main_lambdapp found past argv).2.length < 1 then lcc_exit.fail
  else
    match (main_lambdapp found past argv).1 with
    | none => lcc_exit.fail
    | some lambdapp =>
      match lcc_compiler_from_argv (main_lambdapp found past argv).2 with
      | (none, _) => lcc_exit.fail
      | (some cc, rest) => main_cc lambdapp cc (rest.drop 1)

/-! ## Vocabulary of the statements -/

/-- The plain suffix test the rescans are compared with: the argument ends
with one of the entries of the table. -/
def ends_with_ext (arg : CStr) : Bool := exts.any (fun e => e.isSuffixOf arg)

/-- The first entry of the table (from index `ext` on) that the argument ends
with. -/
def first_ext (arg : CStr) : Nat → List CStr → Option Nat
  | _, [] => none
  | ext, e :: rest => if e.isSuffixOf arg then some ext else first_ext arg (ext + 1) rest

/-- An extension of the shape the table holds: a dot followed by characters
that are not dots. -/
def dot_ext (e : CStr) : Prop := ∃ r, e = '.' :: r ∧ '.' ∉ r

/-- Each token followed by one space, as the argument loops of `main` write
them. -/
def spaced (toks : List CStr) : CStr := (toks.map (fun t => t ++ [' '])).flatten

/-- The tokens joined by single spaces, without a space at either end. -/
def unwords : List CStr → CStr
  | [] => []
  | [t] => t
  | t :: u :: toks => t ++ ' ' :: unwords (u :: toks)

/-- The tokens of `argv` at the indices `lo ≤ i < lo + n` other than `skip`,
in their order. -/
def arg_tokens (argv : List CStr) (skip lo n : Nat) : List CStr :=
  ((List.range' lo n).filter (fun i => decide (i ≠ skip))).map (fun i => argv.getD i [])

/-- The position `k` holds the first token of `argv` equal to `-o`. -/
def first_o (argv : List CStr) (k : Nat) : Prop :=
  argv[k]? = some str_o ∧ ∀ j, j < k → argv[j]? ≠ some str_o

/-- The include-path flag `main` injects, as a list of at most one token:
`-I` followed by the source path up to its last `/`. -/
def srcdir_flag (source : lcc_source_t) : List CStr :=
  match strrchr source.file '/' with
  | some dirsep => [['-', 'I'] ++ source.file.take dirsep]
  | none => []

/-- The text with every double quote replaced by a backslash and a double
quote, every other character kept. -/
def escape_quotes (cmd : CStr) : CStr :=
  cmd.flatMap (fun c => if c = Char.ofNat 34 then [Char.ofNat 92, Char.ofNat 34] else [c])

/-- The text with the backslash before each double quote deleted. -/
def unescape_quotes : CStr → CStr
  | [] => []
  | [c] => [c]
  | c :: d :: s =>
    if c = Char.ofNat 92 ∧ d = Char.ofNat 34 then d :: unescape_quotes s
    else c :: unescape_quotes (d :: s)

/-- The text holds two adjacent spaces. -/
def double_space : CStr → Bool
  | [] => false
  | c :: s => (c == ' ' && s.head? == some ' ') || double_space s

/-- A piece of a command line that may stand between single spaces: not
empty, no space at either end, no two adjacent spaces inside. -/
def phrase_ok (p : CStr) : Prop :=
  p ≠ [] ∧ p.head? ≠ some ' ' ∧ p.getLast? ≠ some ' ' ∧ double_space p = false

theorem strstr_none {hay e : CStr} (h : strstr hay e = none) : ¬ e <:+ hay := by
  induction hay with
  | nil =>
    intro hs
    have he : e = [] := List.eq_nil_of_suffix_nil hs
    subst he
    simp [strstr] at h
  | cons c hay ih =>
    rw [strstr] at h
    split at h
    · simp at h
    · rename_i hp
      intro hs
      rcases List.suffix_cons_iff.mp hs with h1 | h1
      · subst h1
        simp at hp
      · exact ih h h1

theorem strstr_some {hay e find : CStr} (h : strstr hay e = some find) :
    find <:+ hay ∧ e <+: find ∧ (e <:+ hay → e <:+ find) := by
  induction hay with
  | nil =>
    rw [strstr] at h
    split at h
    · rename_i hp
      simp only [Option.some.injEq] at h
      subst h
      exact ⟨List.suffix_refl _, List.isPrefixOf_iff_prefix.mp hp, id⟩
    · simp at h
  | cons c hay ih =>
    rw [strstr] at h
    split at h
    · rename_i hp
      simp only [Option.some.injEq] at h
      subst h
      exact ⟨List.suffix_refl _, List.isPrefixOf_iff_prefix.mp hp, id⟩
    · rename_i hp
      obtain ⟨h1, h2, h3⟩ := ih h
      refine ⟨h1.trans (List.suffix_cons _ _), h2, ?_⟩
      intro hs
      rcases List.suffix_cons_iff.mp hs with h4 | h4
      · subst h4
        exact absurd (List.isPrefixOf_iff_prefix.mpr (List.prefix_refl _)) hp
      · exact h3 h4

/-- An occurrence at the end is not lost by stepping over a dotted extension. -/
theorem suffix_drop_of_dot {e find : CStr} (hd : dot_ext e) (hp : e <+: find)
    (hne : find ≠ e) (hs : e <:+ find) : e <:+ find.drop e.length := by
  obtain ⟨r, rfl⟩ := hp
  obtain ⟨u, hu⟩ := hs
  have hr : r ≠ [] := by
    intro h0
    apply hne
    simp [h0]
  rw [List.drop_left]
  rcases List.append_eq_append_iff.mp hu with ⟨a, h1, h2⟩ | ⟨c, h1, h2⟩
  · -- e = u ++ a and e = a ++ r
    obtain ⟨t, ht, hnd⟩ := hd
    cases a with
    | nil => exact ⟨[], by simpa using h2⟩
    | cons x a =>
      exfalso
      have hx : x = '.' := by
        rw [ht] at h2
        simp at h2
        exact h2.1.symm
      cases u with
      | nil =>
        simp at h1
        rw [h1] at h2
        have := congrArg List.length h2
        simp at this
        exact hr this
      | cons y u =>
        rw [ht] at h1
        simp at h1
        apply hnd
        rw [h1.2, hx]
        simp
  · exact ⟨c, h2.symm⟩

theorem lcc_source_scan_eq {e : CStr} (hd : dot_ext e) :
    ∀ (fuel : Nat) (find : CStr), e <+: find → find.length < fuel →
      lcc_source_scan fuel find e = some (decide (e <:+ find)) := by
  intro fuel
  induction fuel with
  | zero => intro find _ h; omega
  | succ fuel ih =>
    intro find hp hlen
    rw [lcc_source_scan]
    have hpos : 0 < e.length := by
      obtain ⟨r, hr, _⟩ := hd
      simp [hr]
    by_cases heq : find = e
    · simp [heq]
    · rw [if_neg heq]
      have hfl : 0 < find.length := lt_of_lt_of_le hpos hp.length_le
      have hdl : (find.drop e.length).length < find.length := by
        rw [List.length_drop]; omega
      cases hst : strstr (find.drop e.length) e with
      | none =>
        have h1 := strstr_none hst
        have h2 : ¬ e <:+ find := fun hs => h1 (suffix_drop_of_dot hd hp heq hs)
        simp [h2]
      | some next =>
        obtain ⟨h1, h2, h3⟩ := strstr_some hst
        have hn : next.length < fuel := by
          have := h1.length_le
          omega
        simp only
        rw [ih next h2 hn]
        congr 1
        apply decide_eq_decide.mpr
        constructor
        · intro hs
          exact hs.trans (h1.trans (List.drop_suffix _ _))
        · intro hs
          exact h3 (suffix_drop_of_dot hd hp heq hs)

theorem lcc_source_exts_eq (arg : CStr) :
    ∀ (rest : List CStr) (ext : Nat), (∀ e ∈ rest, dot_ext e) →
      lcc_source_exts arg ext rest = first_ext arg ext rest := by
  intro rest
  induction rest with
  | nil => intro ext _; rfl
  | cons e rest ih =>
    intro ext hd
    have hde : dot_ext e := hd e (List.mem_cons_self _ _)
    have ih1 := ih (ext + 1) (fun x hx => hd x (List.mem_cons_of_mem _ hx))
    rw [lcc_source_exts, first_ext]
    cases hst : strstr arg e with
    | none =>
      have h1 := strstr_none hst
      have h2 : e.isSuffixOf arg = false := by
        rw [Bool.eq_false_iff]
        intro h
        exact h1 (List.isSuffixOf_iff_suffix.mp h)
      simp [h2, ih1]
    | some find =>
      obtain ⟨h1, h2, h3⟩ := strstr_some hst
      have hlen : find.length < arg.length + 1 := by
        have := h1.length_le
        omega
      simp only
      rw [lcc_source_scan_eq hde _ find h2 hlen]
      by_cases hs : e <:+ arg
      · have hs1 : e <:+ find := h3 hs
        have hs2 : e.isSuffixOf arg = true := List.isSuffixOf_iff_suffix.mpr hs
        simp [hs1, hs2]
      · have hs1 : ¬ e <:+ find := fun h => hs (h.trans h1)
        have hs2 : e.isSuffixOf arg = false := by
          rw [Bool.eq_false_iff]
          intro h
          exact hs (List.isSuffixOf_iff_suffix.mp h)
        simp [hs1, hs2, ih1]

theorem exts_dot : ∀ e ∈ exts, dot_ext e := by
  intro e he
  simp only [exts, List.mem_cons, List.mem_singleton, List.not_mem_nil, or_false] at he
  rcases he with h | h | h | h | h | h | h | h | h | h <;> subst h <;>
    exact ⟨_, rfl, by decide⟩

/-! ## `lcc_source_find` -/

theorem first_ext_none (arg : CStr) :
    ∀ (rest : List CStr) (ext : Nat),
      first_ext arg ext rest = none ↔ rest.any (fun e => e.isSuffixOf arg) = false := by
  intro rest
  induction rest with
  | nil => intro ext; simp [first_ext]
  | cons e rest ih =>
    intro ext
    rw [first_ext, List.any_cons]
    cases h : e.isSuffixOf arg with
    | true => simp
    | false => simpa using ih (ext + 1)

theorem lcc_source_exts_none (arg : CStr) :
    lcc_source_exts arg 0 exts = none ↔ ends_with_ext arg = false := by
  rw [lcc_source_exts_eq arg exts 0 exts_dot, first_ext_none]
  rfl

theorem lcc_source_exts_zero (arg : CStr) :
    lcc_source_exts arg 0 exts = some 0 ↔ ['.', 'c'] <:+ arg := by
  rw [lcc_source_exts_eq arg exts 0 exts_dot]
  rw [exts, first_ext]
  by_cases h : ['.', 'c'] <:+ arg
  · simp [h]
  · have h2 : List.isSuffixOf ['.', 'c'] arg = false := by
      rw [Bool.eq_false_iff]
      intro h3
      exact h (List.isSuffixOf_iff_suffix.mp h3)
    simp only [h2, h, iff_false]
    have key : ∀ (rest : List CStr) (k : Nat), 0 < k → first_ext arg k rest ≠ some 0 := by
      intro rest
      induction rest with
      | nil => intro k _; simp [first_ext]
      | cons e rest ih =>
        intro k hk
        rw [first_ext]
        split
        · simp only [ne_eq, Option.some.injEq]; omega
        · exact ih (k + 1) (by omega)
    simpa using key _ 1 (by omega)

theorem lcc_source_find_loop_none (argv : List CStr) :
    ∀ (n i : Nat), lcc_source_find_loop argv n i = none ↔
      ∀ j, i ≤ j → j < i + n → ends_with_ext (argv.getD j []) = false := by
  intro n
  induction n with
  | zero =>
    intro i
    simp only [lcc_source_find_loop, true_iff]
    intro j h1 h2
    omega
  | succ n ih =>
    intro i
    rw [lcc_source_find_loop]
    cases h : lcc_source_exts (argv.getD i []) 0 exts with
    | some ext =>
      constructor
      · intro h2
        simp at h2
      · intro h2
        have h3 := h2 i (le_refl _) (by omega)
        rw [← lcc_source_exts_none, h] at h3
        simp at h3
    | none =>
      simp only
      rw [ih (i + 1)]
      rw [lcc_source_exts_none] at h
      constructor
      · intro h2 j h3 h4
        by_cases hj : j = i
        · rw [hj]; exact h
        · exact h2 j (by omega) (by omega)
      · intro h2 j h3 h4
        exact h2 j (by omega) (by omega)

theorem lcc_source_find_loop_some (argv : List CStr) :
    ∀ (n i : Nat) (source : lcc_source_t), lcc_source_find_loop argv n i = some source →
      i ≤ source.index ∧ source.index < i + n ∧ source.file = argv.getD source.index [] ∧
      ends_with_ext source.file = true ∧
      (source.cpp = false ↔ ['.', 'c'] <:+ source.file) ∧
      ∀ j, i ≤ j → j < source.index → ends_with_ext (argv.getD j []) = false := by
  intro n
  induction n with
  | zero => intro i source h; simp [lcc_source_find_loop] at h
  | succ n ih =>
    intro i source h
    rw [lcc_source_find_loop] at h
    cases hx : lcc_source_exts (argv.getD i []) 0 exts with
    | some ext =>
      rw [hx] at h
      simp only [Option.some.injEq] at h
      subst h
      refine ⟨le_refl _, by simp only; omega, rfl, ?_, ?_, ?_⟩
      · simp only
        cases he : ends_with_ext (argv.getD i [])
        · rw [← lcc_source_exts_none, hx] at he
          simp at he
        · rfl
      · simp only
        rw [← lcc_source_exts_zero, hx]
        simp only [ge_iff_le, decide_eq_false_iff_not, Option.some.injEq]
        omega
      · intro j h1 h2
        simp only at h2
        omega
    | none =>
      rw [hx] at h
      simp only at h
      obtain ⟨h1, h2, h3, h4, h5, h6⟩ := ih (i + 1) source h
      refine ⟨by omega, by omega, h3, h4, h5, ?_⟩
      intro j h7 h8
      by_cases hj : j = i
      · rw [hj]; exact (lcc_source_exts_none _).mp hx
      · exact h6 j (by omega) h8

theorem lcc_source_find_none (argv : List CStr) :
    lcc_source_find argv = none ↔ ∀ arg ∈ argv, ends_with_ext arg = false := by
  rw [lcc_source_find, lcc_source_find_loop_none]
  constructor
  · intro h arg ha
    obtain ⟨j, hj, rfl⟩ := List.getElem_of_mem ha
    have := h j (Nat.zero_le _) (by omega)
    rwa [List.getD_eq_getElem _ _ hj] at this
  · intro h j _ hj
    have hj2 : j < argv.length := by omega
    rw [List.getD_eq_getElem _ _ hj2]
    exact h _ (List.getElem_mem _)

theorem lcc_source_find_some {argv : List CStr} {source : lcc_source_t}
    (h : lcc_source_find argv = some source) :
    source.index < argv.length ∧ argv[source.index]? = some source.file ∧
      ends_with_ext source.file = true ∧
      (source.cpp = false ↔ ['.', 'c'] <:+ source.file) ∧
      ∀ j, j < source.index → ends_with_ext (argv.getD j []) = false := by
  obtain ⟨_, h2, h3, h4, h5, h6⟩ := lcc_source_find_loop_some argv _ _ source h
  have hlt : source.index < argv.length := by omega
  refine ⟨hlt, ?_, h4, h5, fun j hj => h6 j (Nat.zero_le _) hj⟩
  rw [h3, List.getD_eq_getElem _ _ hlt, List.getElem?_eq_getElem hlt]

/-! ## `lcc_output_find` -/

theorem lcc_output_find_loop_some (argv : List CStr) (output : lcc_output_t) :
    ∀ (n i : Nat) (o : lcc_output_t), i + n = argv.length →
      (lcc_output_find_loop argv output n i = some o ↔
        ∃ k, i ≤ k ∧ k + 1 < argv.length ∧ argv.getD k [] = str_o ∧
          (∀ j, i ≤ j → j < k → argv.getD j [] ≠ str_o) ∧
          o = { output with index := k, output := argv.getD (k + 1) [] }) := by
  intro n
  induction n with
  | zero =>
    intro i o hi
    simp only [lcc_output_find_loop]
    constructor
    · intro h
      simp at h
    · intro ⟨k, h1, h2, _⟩
      omega
  | succ n ih =>
    intro i o hi
    rw [lcc_output_find_loop]
    by_cases ho : argv.getD i [] = str_o
    · rw [if_neg (not_not.mpr ho)]
      by_cases hl : i + 1 ≥ argv.length
      · rw [if_pos hl]
        constructor
        · intro h
          simp at h
        · intro ⟨k, h1, h2, h3, h4, _⟩
          by_cases hk : k = i
          · omega
          · exact absurd ho (h4 i (le_refl _) (by omega))
      · rw [if_neg hl]
        constructor
        · intro h
          simp only [Option.some.injEq] at h
          exact ⟨i, le_refl _, by omega, ho, fun j h1 h2 => by omega, h.symm⟩
        · intro ⟨k, h1, h2, h3, h4, h5⟩
          have hk : k = i := by
            by_contra hne
            exact absurd ho (h4 i (le_refl _) (by omega))
          subst hk
          rw [h5]
    · rw [if_pos ho, ih (i + 1) o (by omega)]
      constructor
      · intro ⟨k, h1, h2, h3, h4, h5⟩
        refine ⟨k, by omega, h2, h3, ?_, h5⟩
        intro j h6 h7
        by_cases hj : j = i
        · rw [hj]; exact ho
        · exact h4 j (by omega) h7
      · intro ⟨k, h1, h2, h3, h4, h5⟩
        have hk : k ≠ i := by
          intro hk
          rw [hk] at h3
          exact ho h3
        exact ⟨k, by omega, h2, h3, fun j h6 h7 => h4 j (by omega) h7, h5⟩

theorem first_o_iff (argv : List CStr) (k : Nat) (hk : k < argv.length) :
    first_o argv k ↔
      argv.getD k [] = str_o ∧ ∀ j, 0 ≤ j → j < k → argv.getD j [] ≠ str_o := by
  unfold first_o
  rw [List.getD_eq_getElem _ _ hk, List.getElem?_eq_getElem hk]
  simp only [Option.some.injEq, Nat.zero_le, true_implies]
  constructor
  · intro ⟨h1, h2⟩
    refine ⟨h1, fun j hj => ?_⟩
    have hj2 : j < argv.length := by omega
    have := h2 j hj
    rw [List.getElem?_eq_getElem hj2] at this
    rw [List.getD_eq_getElem _ _ hj2]
    simpa using this
  · intro ⟨h1, h2⟩
    refine ⟨h1, fun j hj => ?_⟩
    have hj2 : j < argv.length := by omega
    have := h2 j hj
    rw [List.getD_eq_getElem _ _ hj2] at this
    rw [List.getElem?_eq_getElem hj2]
    simpa using this

theorem lcc_output_find_some (argv : List CStr) (output o : lcc_output_t) :
    lcc_output_find argv output = some o ↔
      ∃ k, first_o argv k ∧ k + 1 < argv.length ∧
        o = { output with index := k, output := argv.getD (k + 1) [] } := by
  rw [lcc_output_find, lcc_output_find_loop_some argv output _ 0 o (by omega)]
  constructor
  · intro ⟨k, _, h2, h3, h4, h5⟩
    exact ⟨k, (first_o_iff argv k (by omega)).mpr ⟨h3, h4⟩, h2, h5⟩
  · intro ⟨k, h1, h2, h3⟩
    obtain ⟨h4, h5⟩ := (first_o_iff argv k (by omega)).mp h1
    exact ⟨k, Nat.zero_le _, h2, h4, h5, h3⟩

theorem main_output_of_some {argv : List CStr} {o : lcc_output_t}
    (h : lcc_output_find argv { output := [], index := 0, aout := false } = some o) :
    main_output argv = o ∧ main_stop argv = o.index ∧ o.aout = false ∧
      o.index + 1 < argv.length := by
  have h1 : main_output argv = o := by simp [main_output, h]
  obtain ⟨k, _, h3, h4⟩ := (lcc_output_find_some argv _ o).mp h
  have h5 : o.aout = false := by rw [h4]
  refine ⟨h1, ?_, h5, by rw [h4]; exact h3⟩
  simp [main_stop, h1, h5]

theorem main_output_of_none {argv : List CStr}
    (h : lcc_output_find argv { output := [], index := 0, aout := false } = none) :
    main_output argv = { output := str_aout, index := 0, aout := true } ∧
      main_stop argv = argv.length := by
  have h1 : main_output argv = { output := str_aout, index := 0, aout := true } := by
    simp [main_output, h]
  exact ⟨h1, by simp [main_stop, h1]⟩

theorem main_stop_le (argv : List CStr) : main_stop argv ≤ argv.length := by
  cases h : lcc_output_find argv { output := [], index := 0, aout := false } with
  | none => rw [(main_output_of_none h).2]
  | some o =>
    obtain ⟨_, h2, _, h4⟩ := main_output_of_some h
    omega

/-! ## Token sequences and their text -/

theorem spaced_nil : spaced [] = [] := rfl

theorem spaced_cons (t : CStr) (toks : List CStr) :
    spaced (t :: toks) = t ++ ' ' :: spaced toks := by
  simp [spaced]

theorem spaced_append (l₁ l₂ : List CStr) : spaced (l₁ ++ l₂) = spaced l₁ ++ spaced l₂ := by
  simp [spaced]

theorem spaced_eq_unwords (toks : List CStr) (h : toks ≠ []) :
    spaced toks = unwords toks ++ [' '] := by
  induction toks with
  | nil => exact absurd rfl h
  | cons t toks ih =>
    cases toks with
    | nil => simp [spaced, unwords]
    | cons u toks =>
      rw [spaced_cons, ih (by simp), unwords]
      simp

theorem dropLast_spaced (toks : List CStr) : (spaced toks).dropLast = unwords toks := by
  cases toks with
  | nil => rfl
  | cons t toks => rw [spaced_eq_unwords _ (by simp), List.dropLast_concat]

theorem lcc_string_trim_spaced (toks : List CStr) :
    (lcc_string_trim ⟨spaced toks⟩).buffer = unwords toks := by
  unfold lcc_string_trim lcc_string_t.used
  split
  · exact dropLast_spaced toks
  · rename_i h
    simp only [ge_iff_le, not_le] at h
    have h0 : spaced toks = [] := List.length_eq_zero.mp (by omega)
    cases toks with
    | nil => rfl
    | cons t toks =>
      rw [spaced_cons] at h0
      simp at h0

theorem unwords_ne_nil (t : CStr) (toks : List CStr) (h : t ≠ []) :
    unwords (t :: toks) ≠ [] := by
  cases toks with
  | nil => simpa [unwords] using h
  | cons u toks => simp [unwords, h]

theorem unwords_getLast (toks : List CStr)
    (h : ∀ t ∈ toks, t ≠ [] ∧ ' ' ∉ t) : (unwords toks).getLast? ≠ some ' ' := by
  induction toks with
  | nil => simp [unwords]
  | cons t toks ih =>
    cases toks with
    | nil =>
      obtain ⟨_, h2⟩ := h t (List.mem_cons_self _ _)
      intro h3
      exact h2 (List.mem_of_getLast?_eq_some h3)
    | cons u toks =>
      have ih2 := ih (fun x hx => h x (List.mem_cons_of_mem _ hx))
      have hu : u ≠ [] := (h u (by simp)).1
      have hne : unwords (u :: toks) ≠ [] := unwords_ne_nil u toks hu
      rw [unwords]
      have e : t ++ ' ' :: unwords (u :: toks) = (t ++ [' ']) ++ unwords (u :: toks) := by simp
      rw [e, List.getLast?_append_of_ne_nil _ hne]
      exact ih2

theorem arg_tokens_zero (argv : List CStr) (skip lo : Nat) : arg_tokens argv skip lo 0 = [] := rfl

theorem arg_tokens_succ (argv : List CStr) (skip lo n : Nat) :
    arg_tokens argv skip lo (n + 1) =
      if lo = skip then arg_tokens argv skip (lo + 1) n
      else argv.getD lo [] :: arg_tokens argv skip (lo + 1) n := by
  unfold arg_tokens
  rw [List.range'_succ, List.filter_cons]
  by_cases h : lo = skip
  · simp [h]
  · simp [h]

theorem arg_tokens_append (argv : List CStr) (skip lo n m : Nat) :
    arg_tokens argv skip lo (n + m) =
      arg_tokens argv skip lo n ++ arg_tokens argv skip (lo + n) m := by
  unfold arg_tokens
  rw [Nat.add_comm n m, ← List.range'_append_1, List.filter_append, List.map_append]

theorem mem_arg_tokens (argv : List CStr) (skip lo n : Nat) (t : CStr) :
    t ∈ arg_tokens argv skip lo n ↔
      ∃ i, lo ≤ i ∧ i < lo + n ∧ i ≠ skip ∧ argv.getD i [] = t := by
  unfold arg_tokens
  simp only [List.mem_map, List.mem_filter, List.mem_range'_1, decide_eq_true_eq]
  constructor
  · intro ⟨i, ⟨⟨h1, h2⟩, h3⟩, h4⟩
    exact ⟨i, h1, h2, h3, h4⟩
  · intro ⟨i, h1, h2, h3, h4⟩
    exact ⟨i, ⟨⟨h1, h2⟩, h3⟩, h4⟩

theorem arg_tokens_outside (argv : List CStr) (skip : Nat) :
    ∀ (n lo : Nat), (skip < lo ∨ lo + n ≤ skip) → lo + n ≤ argv.length →
      arg_tokens argv skip lo n = (argv.drop lo).take n := by
  intro n
  induction n with
  | zero => intro lo _ _; simp [arg_tokens_zero]
  | succ n ih =>
    intro lo h1 h2
    have hlo : lo < argv.length := by omega
    rw [arg_tokens_succ, if_neg (by omega), ih (lo + 1) (by omega) (by omega),
      List.drop_eq_getElem_cons hlo, List.take_succ_cons, List.getD_eq_getElem _ _ hlo]

theorem arg_tokens_all (argv : List CStr) (skip : Nat) :
    arg_tokens argv skip 0 argv.length = argv.eraseIdx skip := by
  by_cases h : skip < argv.length
  · have e : argv.length = skip + (1 + (argv.length - (skip + 1))) := by omega
    rw [List.eraseIdx_eq_take_drop_succ]
    conv => lhs; rw [e]
    rw [arg_tokens_append, arg_tokens_append, arg_tokens_outside argv skip skip 0 (by omega) (by omega)]
    rw [arg_tokens_succ, if_pos (by omega), arg_tokens_zero]
    rw [arg_tokens_outside argv skip _ _ (by omega) (by omega)]
    simp only [List.drop_zero, Nat.zero_add, List.nil_append, List.append_cancel_left_eq]
    rw [List.take_of_length_le]
    simp
  · rw [arg_tokens_outside argv skip _ 0 (by omega) (by omega)]
    rw [List.eraseIdx_of_length_le (by omega)]
    simp

/-! ## The loops of `main` -/

theorem main_args_loop_eq (argv : List CStr) (source : lcc_source_t) :
    ∀ (n i : Nat) (st : lcc_string_t × Bool),
      main_args_loop argv source n i st =
        (⟨st.1.buffer ++ spaced (arg_tokens argv source.index i n)⟩,
          st.2 || decide (str_c ∈ arg_tokens argv source.index i n)) := by
  intro n
  induction n with
  | zero =>
    intro i st
    simp [main_args_loop, arg_tokens_zero, spaced_nil]
  | succ n ih =>
    intro i st
    rw [main_args_loop, arg_tokens_succ]
    by_cases h : i = source.index
    · rw [if_pos h, if_pos h, ih]
    · rw [if_neg h, if_neg h, ih, spaced_cons]
      simp only [lcc_string_appendf, List.append_assoc, List.singleton_append, List.mem_cons]
      congr 1
      generalize argv.getD i [] = a
      by_cases hc : a = str_c
      · simp [hc]
      · have hc2 : ¬ str_c = a := fun h => hc h.symm
        simp [hc, hc2]

theorem main_link_loop_eq (argv : List CStr) :
    ∀ (n i : Nat) (string : lcc_string_t), i + n ≤ argv.length →
      (main_link_loop argv n i string).buffer =
        string.buffer ++ (((argv.drop i).take n).map (fun t => ' ' :: t)).flatten := by
  intro n
  induction n with
  | zero => intro i string _; simp [main_link_loop]
  | succ n ih =>
    intro i string h
    have hi : i < argv.length := by omega
    rw [main_link_loop, ih (i + 1) _ (by omega), List.drop_eq_getElem_cons hi,
      List.take_succ_cons, List.getD_eq_getElem _ _ hi]
    simp [lcc_string_appendf]

/-! ## `strrchr` -/

theorem strrchr_none (c : Char) : ∀ (s : CStr), strrchr s c = none ↔ c ∉ s := by
  intro s
  induction s with
  | nil => simp [strrchr]
  | cons x s ih =>
    rw [strrchr]
    cases h : strrchr s c with
    | some k =>
      have : c ∈ s := by
        by_contra hc
        rw [ih.mpr hc] at h
        simp at h
      simp [this]
    | none =>
      have hc := ih.mp h
      by_cases hx : x = c
      · simp [hx]
      · have hx2 : ¬ c = x := fun h => hx h.symm
        simp [hx, hc, hx2]

theorem strrchr_some (c : Char) :
    ∀ (s : CStr) (k : Nat), strrchr s c = some k →
      s = s.take k ++ c :: s.drop (k + 1) ∧ c ∉ s.drop (k + 1) := by
  intro s
  induction s with
  | nil => intro k h; simp [strrchr] at h
  | cons x s ih =>
    intro k h
    rw [strrchr] at h
    cases hs : strrchr s c with
    | some j =>
      rw [hs] at h
      simp only [Option.some.injEq] at h
      subst h
      obtain ⟨h1, h2⟩ := ih j hs
      refine ⟨?_, by simpa using h2⟩
      simp only [List.take_succ_cons, List.drop_succ_cons, List.cons_append, List.cons.injEq,
        true_and]
      exact h1
    | none =>
      rw [hs] at h
      simp only at h
      split at h
      · rename_i hx
        simp only [Option.some.injEq] at h
        subst h
        subst hx
        exact ⟨by simp, by simpa using (strrchr_none _ s).mp hs⟩
      · simp at h

/-! ## The argument groups of `main` -/

theorem main_before_loop_eq (argv : List CStr) (source : lcc_source_t) :
    (main_before_loop argv source).1.buffer =
        spaced (arg_tokens argv source.index 0 (main_stop argv)) ∧
      (main_before_loop argv source).2 =
        decide (str_c ∈ arg_tokens argv source.index 0 (main_stop argv)) := by
  simp [main_before_loop, main_args_loop_eq, lcc_string_init]

theorem main_args_before_eq (argv : List CStr) (source : lcc_source_t) :
    (main_args_before argv source).buffer =
      unwords (arg_tokens argv source.index 0 (main_stop argv)) := by
  have h := (main_before_loop_eq argv source).1
  have e : (main_before_loop argv source).1 =
      ⟨spaced (arg_tokens argv source.index 0 (main_stop argv))⟩ := by
    cases hb : (main_before_loop argv source).1
    rw [hb] at h
    simp only at h
    rw [h]
  rw [main_args_before, e, lcc_string_trim_spaced]

theorem main_after_loop_eq (argv : List CStr) (source : lcc_source_t) :
    (main_after_loop argv source).1.buffer =
        spaced (arg_tokens argv source.index (main_stop argv)
          (argv.length - main_stop argv)) ∧
      (main_after_loop argv source).2 =
        decide (str_c ∈ argv.eraseIdx source.index) := by
  have hle := main_stop_le argv
  have e : argv.length = main_stop argv + (argv.length - main_stop argv) := by omega
  have hall := arg_tokens_all argv source.index
  conv at hall => lhs; rw [e]
  rw [arg_tokens_append, Nat.zero_add] at hall
  constructor
  · simp [main_after_loop, main_args_loop_eq, lcc_string_init]
  · rw [← hall]
    simp only [main_after_loop, main_args_loop_eq, (main_before_loop_eq argv source).2,
      List.mem_append]
    by_cases h1 : str_c ∈ arg_tokens argv source.index 0 (main_stop argv) <;>
      by_cases h2 : str_c ∈ arg_tokens argv source.index (main_stop argv)
        (argv.length - main_stop argv) <;> simp [h1, h2]

theorem main_args_after_eq (argv : List CStr) (source : lcc_source_t) :
    (main_args_after argv source).buffer =
      unwords (arg_tokens argv source.index (main_stop argv) (argv.length - main_stop argv)
        ++ srcdir_flag source) := by
  have h := (main_after_loop_eq argv source).1
  have e : (main_after_loop argv source).1 =
      ⟨spaced (arg_tokens argv source.index (main_stop argv)
        (argv.length - main_stop argv))⟩ := by
    cases hb : (main_after_loop argv source).1
    rw [hb] at h
    simp only at h
    rw [h]
  rw [main_args_after, e, ← lcc_string_trim_spaced]
  congr 1
  unfold main_srcdir srcdir_flag
  cases strrchr source.file '/' with
  | none => simp
  | some dirsep => simp [lcc_string_appendf, spaced_append, spaced_cons, spaced_nil]

theorem main_compile_only_iff (argv : List CStr) (source : lcc_source_t) :
    main_compile_only argv source = true ↔
      ∃ i, i ≠ source.index ∧ argv[i]? = some str_c := by
  rw [main_compile_only, (main_after_loop_eq argv source).2, decide_eq_true_iff,
    ← arg_tokens_all, mem_arg_tokens]
  constructor
  · intro ⟨i, _, h2, h3, h4⟩
    have hi : i < argv.length := by omega
    refine ⟨i, h3, ?_⟩
    rw [List.getD_eq_getElem _ _ hi] at h4
    rw [List.getElem?_eq_getElem hi, h4]
  · intro ⟨i, h1, h2⟩
    have hi : i < argv.length := by
      by_contra hn
      rw [List.getElem?_eq_none (by omega)] at h2
      simp at h2
    refine ⟨i, Nat.zero_le _, by omega, h1, ?_⟩
    rw [List.getElem?_eq_getElem hi] at h2
    rw [List.getD_eq_getElem _ _ hi]
    simpa using h2

theorem main_cc_of_source {argv : List CStr} {source : lcc_source_t} (lambdapp cc : CStr)
    (hs : lcc_source_find argv = some source) :
    main_cc lambdapp cc argv =
      lcc_exit.system (cmd_sanitize (main_shell lambdapp cc argv source).buffer) := by
  have hlt := (lcc_source_find_some hs).1
  rw [main_cc, if_neg (by omega), hs]

/-! ## The claims -/

/-- C1: when `lcc_source_find` locates a source file and it is not the case
that both `compile_only` is set and the output is defaulted, the command `main`
composes before quoting is the preprocessor, the source path, `|`, the
compiler, `-x<lang>`, the before-arguments, the after-arguments and `-`, joined
by single spaces, with `<lang>` being `c++` when the `cpp` flag is true and `c`
otherwise; that text, quoted by `cmd_sanitize`, is what `main` runs. -/
theorem main_shell_pipeline (lambdapp cc : CStr) (argv : List CStr) (source : lcc_source_t)
    (hs : lcc_source_find argv = some source)
    (hc : ¬ (main_compile_only argv source = true ∧ (main_output argv).aout = true)) :
    (main_shell lambdapp cc argv source).buffer =
        unwords [lambdapp, source.file, ['|'], cc,
          ['-', 'x'] ++ (if source.cpp = true then ['c', '+', '+'] else ['c']),
          (main_args_before argv source).buffer, (main_args_after argv source).buffer, ['-']] ∧
      main_cc lambdapp cc argv =
        lcc_exit.system (cmd_sanitize (main_shell lambdapp cc argv source).buffer) := by
  refine ⟨?_, main_cc_of_source lambdapp cc hs⟩
  rw [main_shell, if_neg hc]
  simp [lcc_string_appendf, lcc_string_init, unwords, main_lang]

/-- C1, at `-Wall foo.cpp -O2` with preprocessor `P` and compiler `clang`. -/
theorem main_shell_pipeline_witness :
    (main_shell "P".toList "clang".toList ["-Wall".toList, "foo.cpp".toList, "-O2".toList]
        ⟨"foo.cpp".toList, 1, true⟩).buffer =
        unwords ["P".toList, "foo.cpp".toList, ['|'], "clang".toList,
          ['-', 'x'] ++ (if true = true then ['c', '+', '+'] else ['c']),
          (main_args_before ["-Wall".toList, "foo.cpp".toList, "-O2".toList]
            ⟨"foo.cpp".toList, 1, true⟩).buffer,
          (main_args_after ["-Wall".toList, "foo.cpp".toList, "-O2".toList]
            ⟨"foo.cpp".toList, 1, true⟩).buffer, ['-']] ∧
      main_cc "P".toList "clang".toList ["-Wall".toList, "foo.cpp".toList, "-O2".toList] =
        lcc_exit.system (cmd_sanitize
          (main_shell "P".toList "clang".toList
            ["-Wall".toList, "foo.cpp".toList, "-O2".toList]
            ⟨"foo.cpp".toList, 1, true⟩).buffer) :=
  main_shell_pipeline "P".toList "clang".toList
    ["-Wall".toList, "foo.cpp".toList, "-O2".toList] ⟨"foo.cpp".toList, 1, true⟩
    (by decide) (by decide)

/-- C2: when no argument ends with a recognised source extension, the command
`main` hands to the shell is the compiler string followed by every argument in
order, each preceded by one space, with nothing inserted, reordered or
escaped; a non-empty argument list always reaches that call. -/
theorem main_cc_passthrough (lambdapp cc : CStr) (argv : List CStr)
    (h : ∀ arg ∈ argv, ends_with_ext arg = false) :
    (∀ cmd, main_cc lambdapp cc argv = lcc_exit.system cmd →
        cmd = cc ++ (argv.map (fun arg => ' ' :: arg)).flatten) ∧
      (argv ≠ [] →
        main_cc lambdapp cc argv =
          lcc_exit.system (cc ++ (argv.map (fun arg => ' ' :: arg)).flatten)) := by
  have hn := (lcc_source_find_none argv).mpr h
  have key : argv ≠ [] → main_cc lambdapp cc argv =
      lcc_exit.system (cc ++ (argv.map (fun arg => ' ' :: arg)).flatten) := by
    intro hne
    have hl : ¬ argv.length < 1 := by
      have := List.length_pos.mpr hne
      omega
    rw [main_cc, if_neg hl, hn]
    simp only
    rw [main_link_loop_eq argv _ 0 _ (by omega)]
    simp [lcc_string_appendf, lcc_string_init]
  refine ⟨?_, key⟩
  intro cmd hcmd
  by_cases hne : argv = []
  · subst hne
    simp [main_cc] at hcmd
  · rw [key hne] at hcmd
    exact (lcc_exit.system.inj hcmd).symm

/-- C2, at the link line `-o prog main.o` with compiler `gcc`. -/
theorem main_cc_passthrough_witness :
    main_cc "P".toList "gcc".toList ["-o".toList, "prog".toList, "main.o".toList] =
      lcc_exit.system "gcc -o prog main.o".toList :=
  (main_cc_passthrough "P".toList "gcc".toList
    ["-o".toList, "prog".toList, "main.o".toList] (by decide)).2 (by decide)

/-- C3: the rescans of `lcc_source_find` amount to a suffix test.  Every
rescan finishes within its iteration budget; the function fails exactly when
no argument has an entry of the table as its ending; and on success the
descriptor holds the smallest index whose argument has such an ending, and
that argument.  So
`a.c.c` and `archive.tar.c` are accepted, `foo.candy` and `foo.c.bak` are
rejected, and an earlier `.cpp` wins over a later `.c`. -/
theorem lcc_source_find_suffix_test (argv : List CStr) :
    (∀ arg e find, e ∈ exts → strstr arg e = some find →
        lcc_source_scan (arg.length + 1) find e = some (e.isSuffixOf arg)) ∧
      (lcc_source_find argv = none ↔ ∀ arg ∈ argv, ends_with_ext arg = false) ∧
      (∀ source, lcc_source_find argv = some source →
        source.index < argv.length ∧ argv[source.index]? = some source.file ∧
          ends_with_ext source.file = true ∧
          ∀ j arg, j < source.index → argv[j]? = some arg → ends_with_ext arg = false) ∧
      (lcc_source_find ["a.c.c".toList]).isSome = true ∧
      (lcc_source_find ["archive.tar.c".toList]).isSome = true ∧
      lcc_source_find ["foo.candy".toList] = none ∧
      lcc_source_find ["foo.c.bak".toList] = none ∧
      lcc_source_find ["main.cpp".toList, "helper.c".toList] =
        some ⟨"main.cpp".toList, 0, true⟩ := by
  refine ⟨?_, lcc_source_find_none argv, ?_, by decide, by decide, by decide, by decide,
    by decide⟩
  · intro arg e find he hst
    obtain ⟨h1, h2, h3⟩ := strstr_some hst
    have hlen : find.length < arg.length + 1 := by
      have := h1.length_le
      omega
    rw [lcc_source_scan_eq (exts_dot e he) _ find h2 hlen]
    congr 1
    rw [Bool.eq_iff_iff]
    simp only [decide_eq_true_eq, List.isSuffixOf_iff_suffix]
    exact ⟨fun h => h.trans h1, h3⟩
  · intro source hs
    obtain ⟨h1, h2, h3, _, h5⟩ := lcc_source_find_some hs
    refine ⟨h1, h2, h3, ?_⟩
    intro j arg hj harg
    have hj2 : j < argv.length := by omega
    have := h5 j hj
    rw [List.getD_eq_getElem _ _ hj2] at this
    rw [List.getElem?_eq_getElem hj2] at harg
    simp only [Option.some.injEq] at harg
    rwa [harg] at this

/-- C3, at `-Wall foo.c.bak a.c.c x.cpp`: the source is the token at index 2. -/
theorem lcc_source_find_suffix_test_witness :
    (2 : Nat) < 4 ∧
      ["-Wall".toList, "foo.c.bak".toList, "a.c.c".toList, "x.cpp".toList][2]? =
        some "a.c.c".toList ∧
      ends_with_ext "a.c.c".toList = true ∧
      ∀ j arg, j < 2 →
        ["-Wall".toList, "foo.c.bak".toList, "a.c.c".toList, "x.cpp".toList][j]? = some arg →
        ends_with_ext arg = false :=
  (lcc_source_find_suffix_test
    ["-Wall".toList, "foo.c.bak".toList, "a.c.c".toList, "x.cpp".toList]).2.2.1
    ⟨"a.c.c".toList, 2, false⟩ (by decide)

/-- C4 (the code departs from it): the `cpp` flag `lcc_source_find` sets is
false exactly when the selected argument ends with `.c`.  So `main.c` gives C
and `main.cpp` gives C++, but `foo.C`, which ends with the second entry of the
"C file extensions" of the table, is classified as C++. -/
theorem lcc_source_find_cpp_upper (argv : List CStr) :
    (lcc_source_find argv).all
        (fun source => source.cpp == !(List.isSuffixOf ['.', 'c'] source.file)) = true ∧
      lcc_source_find ["main.c".toList] = some ⟨"main.c".toList, 0, false⟩ ∧
      lcc_source_find ["main.cpp".toList] = some ⟨"main.cpp".toList, 0, true⟩ ∧
      lcc_source_find ["foo.C".toList] = some ⟨"foo.C".toList, 0, true⟩ ∧
      List.isSuffixOf ['.', 'C'] "foo.C".toList = true ∧
      exts[1]? = some ['.', 'C'] := by
  refine ⟨?_, by decide, by decide, by decide, by decide, by decide⟩
  cases hs : lcc_source_find argv with
  | none => rfl
  | some source =>
    obtain ⟨_, _, _, h4, _⟩ := lcc_source_find_some hs
    simp only [Option.all_some, beq_iff_eq]
    cases hc : source.cpp with
    | false =>
      have := h4.mp hc
      simp [List.isSuffixOf_iff_suffix.mpr this]
    | true =>
      have h5 : ¬ ['.', 'c'] <:+ source.file := by
        intro h
        rw [h4.mpr h] at hc
        simp at hc
      have h6 : List.isSuffixOf ['.', 'c'] source.file = false := by
        rw [Bool.eq_false_iff]
        intro h
        exact h5 (List.isSuffixOf_iff_suffix.mp h)
      simp [h6]

/-- C5: `lcc_output_find` succeeds exactly when the first argument equal to
`-o` has an argument after it; the record then holds the position of that
`-o` and the argument after it.  When it fails, `main` uses the record with
`output = "a.out"` and `aout = true`. -/
theorem lcc_output_find_first_o (argv : List CStr) (output : lcc_output_t) :
    (∀ o, lcc_output_find argv output = some o ↔
        ∃ k, first_o argv k ∧ k + 1 < argv.length ∧ o.index = k ∧
          argv[k + 1]? = some o.output ∧ o.aout = output.aout) ∧
      ((lcc_output_find argv output).isSome = true ↔
        ∃ k, first_o argv k ∧ k + 1 < argv.length) ∧
      (lcc_output_find argv { output := [], index := 0, aout := false } = none →
        main_output argv = { output := str_aout, index := 0, aout := true }) := by
  have h1 : ∀ o, lcc_output_find argv output = some o ↔
      ∃ k, first_o argv k ∧ k + 1 < argv.length ∧ o.index = k ∧
        argv[k + 1]? = some o.output ∧ o.aout = output.aout := by
    intro o
    rw [lcc_output_find_some]
    constructor
    · intro ⟨k, h1, h2, h3⟩
      refine ⟨k, h1, h2, by rw [h3], ?_, by rw [h3]⟩
      rw [h3, List.getD_eq_getElem _ _ h2, List.getElem?_eq_getElem h2]
    · intro ⟨k, h1, h2, h3, h4, h5⟩
      refine ⟨k, h1, h2, ?_⟩
      rw [List.getElem?_eq_getElem h2] at h4
      simp only [Option.some.injEq] at h4
      cases o
      simp only at h3 h4 h5
      rw [List.getD_eq_getElem _ _ h2, h3, h4, h5]
  refine ⟨h1, ?_, fun h => (main_output_of_none h).1⟩
  constructor
  · intro hsome
    obtain ⟨o, ho⟩ := Option.isSome_iff_exists.mp hsome
    obtain ⟨k, h2, h3, _⟩ := (h1 o).mp ho
    exact ⟨k, h2, h3⟩
  · intro ⟨k, h2, h3⟩
    apply Option.isSome_iff_exists.mpr
    refine ⟨{ output with index := k, output := argv.getD (k + 1) [] }, ?_⟩
    rw [lcc_output_find_some]
    exact ⟨k, h2, h3, rfl⟩

/-- C5, at `-c foo.c -o`, where `-o` is the last argument. -/
theorem lcc_output_find_first_o_witness :
    main_output ["-c".toList, "foo.c".toList, "-o".toList] =
      { output := str_aout, index := 0, aout := true } :=
  (lcc_output_find_first_o ["-c".toList, "foo.c".toList, "-o".toList]
    { output := [], index := 0, aout := false }).2.2 (by decide)

/-- C6 (as stated, refuted): at `foo.c -o out` the source is at index 0 and the
`-o` pair at indices 1 and 2, yet `args_after` holds `-o out` and not the
(empty) list of the tokens from index 3 on. -/
theorem main_after_keeps_output_pair :
    lcc_source_find ["foo.c".toList, "-o".toList, "out".toList] =
        some ⟨"foo.c".toList, 0, false⟩ ∧
      lcc_output_find ["foo.c".toList, "-o".toList, "out".toList]
        { output := [], index := 0, aout := false } = some ⟨"out".toList, 1, false⟩ ∧
      (main_after_loop ["foo.c".toList, "-o".toList, "out".toList]
        ⟨"foo.c".toList, 0, false⟩).1.buffer = spaced [str_o, "out".toList] ∧
      (main_after_loop ["foo.c".toList, "-o".toList, "out".toList]
        ⟨"foo.c".toList, 0, false⟩).1.buffer ≠
          spaced (arg_tokens ["foo.c".toList, "-o".toList, "out".toList] 0 (1 + 2)
            (3 - (1 + 2))) ∧
      (main_args_after ["foo.c".toList, "-o".toList, "out".toList]
        ⟨"foo.c".toList, 0, false⟩).buffer = "-o out".toList := by
  decide

/-- C6 (amended): with a located source and an `-o <file>` pair found at index
`k`, `args_before` is the tokens at the indices below `k` other than the source
index, none of them `-o`; `args_after` is the tokens at the indices from `k` on
other than the source index, so it starts with the `-o` token itself, followed
by the injected include-path flag when there is one. -/
theorem main_partition_at_o (argv : List CStr) (source : lcc_source_t) (o : lcc_output_t)
    (hs : lcc_source_find argv = some source)
    (ho : lcc_output_find argv { output := [], index := 0, aout := false } = some o) :
    (main_args_before argv source).buffer =
        unwords (arg_tokens argv source.index 0 o.index) ∧
      str_o ∉ arg_tokens argv source.index 0 o.index ∧
      (main_after_loop argv source).1.buffer =
        spaced (arg_tokens argv source.index o.index (argv.length - o.index)) ∧
      arg_tokens argv source.index o.index (argv.length - o.index) =
        str_o :: arg_tokens argv source.index (o.index + 1) (argv.length - (o.index + 1)) ∧
      (main_args_after argv source).buffer =
        unwords (arg_tokens argv source.index o.index (argv.length - o.index)
          ++ srcdir_flag source) := by
  obtain ⟨_, hstop, _, hlt⟩ := main_output_of_some ho
  obtain ⟨k, hfirst, _, hk⟩ := (lcc_output_find_some argv _ o).mp ho
  have hki : o.index = k := by rw [hk]
  obtain ⟨hsl, hsf, hse, _, _⟩ := lcc_source_find_some hs
  have hb := main_args_before_eq argv source
  have ha := (main_after_loop_eq argv source).1
  have hf := main_args_after_eq argv source
  rw [hstop] at hb ha hf
  have hko : o.index < argv.length := by omega
  have hget : argv.getD o.index [] = str_o := by
    have := hfirst.1
    rw [← hki, List.getElem?_eq_getElem hko] at this
    rw [List.getD_eq_getElem _ _ hko]
    simpa using this
  refine ⟨hb, ?_, ha, ?_, hf⟩
  · intro hmem
    obtain ⟨i, _, h2, _, h4⟩ := (mem_arg_tokens _ _ _ _ _).mp hmem
    have hi : i < argv.length := by omega
    apply hfirst.2 i (by omega)
    rw [List.getElem?_eq_getElem hi]
    rw [List.getD_eq_getElem _ _ hi] at h4
    rw [h4]
  · have e : argv.length - o.index = (argv.length - (o.index + 1)) + 1 := by omega
    have hne : ¬ o.index = source.index := by
      intro heq
      rw [List.getD_eq_getElem _ _ hko] at hget
      rw [← heq, List.getElem?_eq_getElem hko] at hsf
      simp only [Option.some.injEq] at hsf
      rw [← hsf, hget] at hse
      revert hse
      decide
    rw [e, arg_tokens_succ, if_neg hne, hget]

/-- C6 (amended), at `-Wall foo.c -o out -lm`. -/
theorem main_partition_at_o_witness :
    (main_args_before ["-Wall".toList, "foo.c".toList, "-o".toList, "out".toList, "-lm".toList]
        ⟨"foo.c".toList, 1, false⟩).buffer =
        unwords (arg_tokens
          ["-Wall".toList, "foo.c".toList, "-o".toList, "out".toList, "-lm".toList] 1 0 2) ∧
      (main_args_after ["-Wall".toList, "foo.c".toList, "-o".toList, "out".toList, "-lm".toList]
        ⟨"foo.c".toList, 1, false⟩).buffer = "-o out -lm".toList :=
  ⟨(main_partition_at_o
      ["-Wall".toList, "foo.c".toList, "-o".toList, "out".toList, "-lm".toList]
      ⟨"foo.c".toList, 1, false⟩ ⟨"out".toList, 2, false⟩ (by decide) (by decide)).1,
    by decide⟩

/-- C7: with a located source, no usable `-o` pair, and tokens that are
non-empty and free of spaces, the output record is the defaulted one (`a.out`,
`aout` true), `args_before` is all the tokens but the one at the source index,
in order, joined by single spaces and not ending in a space, and `args_after`
holds no argument token: the second loop leaves it empty and only the
include-path flag can be added. -/
theorem main_defaulted_output (argv : List CStr) (source : lcc_source_t)
    (hs : lcc_source_find argv = some source)
    (ho : lcc_output_find argv { output := [], index := 0, aout := false } = none)
    (ht : ∀ t ∈ argv, t ≠ [] ∧ ' ' ∉ t) :
    main_output argv = { output := str_aout, index := 0, aout := true } ∧
      (main_args_before argv source).buffer = unwords (argv.eraseIdx source.index) ∧
      (argv.eraseIdx source.index).length + 1 = argv.length ∧
      (main_args_before argv source).buffer.getLast? ≠ some ' ' ∧
      (main_after_loop argv source).1.buffer = [] ∧
      (main_args_after argv source).buffer = unwords (srcdir_flag source) := by
  obtain ⟨hout, hstop⟩ := main_output_of_none ho
  have hb := main_args_before_eq argv source
  have ha := (main_after_loop_eq argv source).1
  have hf := main_args_after_eq argv source
  rw [hstop] at hb ha hf
  rw [arg_tokens_all] at hb
  rw [Nat.sub_self, arg_tokens_zero] at ha hf
  have hlt := (lcc_source_find_some hs).1
  refine ⟨hout, hb, by rw [List.length_eraseIdx, if_pos hlt]; omega, ?_, ha,
    by simpa using hf⟩
  rw [hb]
  apply unwords_getLast
  intro t htm
  exact ht t ((List.eraseIdx_sublist argv source.index).subset htm)

/-- C7, at `-Wall dir/foo.c -O2`. -/
theorem main_defaulted_output_witness :
    main_output ["-Wall".toList, "dir/foo.c".toList, "-O2".toList] =
        { output := str_aout, index := 0, aout := true } ∧
      (main_args_before ["-Wall".toList, "dir/foo.c".toList, "-O2".toList]
        ⟨"dir/foo.c".toList, 1, false⟩).buffer = "-Wall -O2".toList ∧
      (main_args_after ["-Wall".toList, "dir/foo.c".toList, "-O2".toList]
        ⟨"dir/foo.c".toList, 1, false⟩).buffer = "-Idir".toList :=
  ⟨(main_defaulted_output ["-Wall".toList, "dir/foo.c".toList, "-O2".toList]
      ⟨"dir/foo.c".toList, 1, false⟩ (by decide) (by decide) (by decide)).1,
    by decide, by decide⟩

/-- C9: with a located source, when some argument other than the source is
`-c` and the output is defaulted, the composed command is the pipeline text
followed by ` -o <S>.o` and then the final ` -`, `<S>` being the source token
as written; when no argument other than the source is `-c`, or an `-o <file>`
pair was found, the pipeline text is followed by the final ` -` alone. -/
theorem main_shell_object_output (lambdapp cc : CStr) (argv : List CStr)
    (source : lcc_source_t) (hs : lcc_source_find argv = some source) :
    ((∃ i, i ≠ source.index ∧ argv[i]? = some str_c) ∧
        lcc_output_find argv { output := [], index := 0, aout := false } = none →
      (main_shell lambdapp cc argv source).buffer =
        lambdapp ++ [' '] ++ source.file ++ [' ', '|', ' '] ++ cc ++ [' ', '-', 'x']
          ++ main_lang source ++ [' '] ++ (main_args_before argv source).buffer ++ [' ']
          ++ (main_args_after argv source).buffer
          ++ ([' ', '-', 'o', ' '] ++ source.file ++ ['.', 'o']) ++ [' ', '-']) ∧
      ((¬ ∃ i, i ≠ source.index ∧ argv[i]? = some str_c) ∨
        (lcc_output_find argv { output := [], index := 0, aout := false }).isSome = true →
      (main_shell lambdapp cc argv source).buffer =
        lambdapp ++ [' '] ++ source.file ++ [' ', '|', ' '] ++ cc ++ [' ', '-', 'x']
          ++ main_lang source ++ [' '] ++ (main_args_before argv source).buffer ++ [' ']
          ++ (main_args_after argv source).buffer ++ [' ', '-']) := by
  have hlt := (lcc_source_find_some hs).1
  constructor
  · intro ⟨hc, ho⟩
    have h1 := (main_compile_only_iff argv source).mpr hc
    have h2 : (main_output argv).aout = true := by rw [(main_output_of_none ho).1]
    rw [main_shell, if_pos ⟨h1, h2⟩]
    simp [lcc_string_appendf, lcc_string_init]
  · intro h
    have hn : ¬ (main_compile_only argv source = true ∧ (main_output argv).aout = true) := by
      intro ⟨h1, h2⟩
      rcases h with h | h
      · exact h ((main_compile_only_iff argv source).mp h1)
      · obtain ⟨o, ho⟩ := Option.isSome_iff_exists.mp h
        obtain ⟨h5, _, h6, _⟩ := main_output_of_some ho
        rw [h5, h6] at h2
        simp at h2
    rw [main_shell, if_neg hn]
    simp [lcc_string_appendf, lcc_string_init]

/-- C9, at `gcc -c bar.c`: the command sets `-o bar.c.o`. -/
theorem main_shell_object_output_witness :
    (main_shell "P".toList "gcc".toList ["-c".toList, "bar.c".toList]
        ⟨"bar.c".toList, 1, false⟩).buffer =
      "P".toList ++ [' '] ++ "bar.c".toList ++ [' ', '|', ' '] ++ "gcc".toList ++ [' ', '-', 'x']
        ++ main_lang ⟨"bar.c".toList, 1, false⟩ ++ [' ']
        ++ (main_args_before ["-c".toList, "bar.c".toList] ⟨"bar.c".toList, 1, false⟩).buffer
        ++ [' ']
        ++ (main_args_after ["-c".toList, "bar.c".toList] ⟨"bar.c".toList, 1, false⟩).buffer
        ++ ([' ', '-', 'o', ' '] ++ "bar.c".toList ++ ['.', 'o']) ++ [' ', '-'] :=
  (main_shell_object_output "P".toList "gcc".toList ["-c".toList, "bar.c".toList]
    ⟨"bar.c".toList, 1, false⟩ (by decide)).1 ⟨⟨0, by decide, by decide⟩, by decide⟩

/-- C10: when the located source token contains a `/`, `main` appends to
`args_after`, after the argument tokens of that group, the one flag `-I<dir>`
with `<dir>` the text of the source token before its last `/`; in the composed
command the flag stands before the final ` -` (and before ` -o <S>.o` when that
is added). -/
theorem main_include_flag (lambdapp cc : CStr) (argv : List CStr) (source : lcc_source_t)
    (hs : lcc_source_find argv = some source) (hsl : '/' ∈ source.file) :
    ∃ dir base, source.file = dir ++ '/' :: base ∧ '/' ∉ base ∧
      (main_after_loop argv source).1.buffer =
        spaced (arg_tokens argv source.index (main_stop argv)
          (argv.length - main_stop argv)) ∧
      (main_args_after argv source).buffer =
        (main_after_loop argv source).1.buffer ++ ['-', 'I'] ++ dir ∧
      (main_shell lambdapp cc argv source).buffer =
        lambdapp ++ [' '] ++ source.file ++ [' ', '|', ' '] ++ cc ++ [' ', '-', 'x']
          ++ main_lang source ++ [' '] ++ (main_args_before argv source).buffer ++ [' ']
          ++ ((main_after_loop argv source).1.buffer ++ ['-', 'I'] ++ dir)
          ++ (if main_compile_only argv source = true ∧ (main_output argv).aout = true
              then [' ', '-', 'o', ' '] ++ source.file ++ ['.', 'o', ' ', '-']
              else [' ', '-']) := by
  have hlt := (lcc_source_find_some hs).1
  cases hr : strrchr source.file '/' with
  | none => exact absurd hsl ((strrchr_none _ _).mp hr)
  | some dirsep =>
    obtain ⟨h1, h2⟩ := strrchr_some _ _ _ hr
    have hafter : (main_args_after argv source).buffer =
        (main_after_loop argv source).1.buffer ++ ['-', 'I'] ++ source.file.take dirsep := by
      simp only [main_args_after, main_srcdir, hr, lcc_string_appendf, lcc_string_trim,
        lcc_string_t.used]
      rw [if_pos (by simp; omega)]
      simp only [← List.append_assoc, List.dropLast_concat]
    refine ⟨source.file.take dirsep, source.file.drop (dirsep + 1), h1, h2,
      (main_after_loop_eq argv source).1, hafter, ?_⟩
    rw [main_shell, hafter]
    split <;> simp [lcc_string_appendf, lcc_string_init]

/-- C10, at `-c src/lib/foo.c`: the flag is `-Isrc/lib`. -/
theorem main_include_flag_witness :
    ∃ dir base, "src/lib/foo.c".toList = dir ++ '/' :: base ∧ '/' ∉ base ∧
      (main_after_loop ["-c".toList, "src/lib/foo.c".toList]
        ⟨"src/lib/foo.c".toList, 1, false⟩).1.buffer =
        spaced (arg_tokens ["-c".toList, "src/lib/foo.c".toList] 1
          (main_stop ["-c".toList, "src/lib/foo.c".toList])
          (2 - main_stop ["-c".toList, "src/lib/foo.c".toList])) ∧
      (main_args_after ["-c".toList, "src/lib/foo.c".toList]
        ⟨"src/lib/foo.c".toList, 1, false⟩).buffer =
        (main_after_loop ["-c".toList, "src/lib/foo.c".toList]
          ⟨"src/lib/foo.c".toList, 1, false⟩).1.buffer ++ ['-', 'I'] ++ dir ∧
      (main_shell "P".toList "gcc".toList ["-c".toList, "src/lib/foo.c".toList]
        ⟨"src/lib/foo.c".toList, 1, false⟩).buffer =
        "P".toList ++ [' '] ++ "src/lib/foo.c".toList ++ [' ', '|', ' '] ++ "gcc".toList
          ++ [' ', '-', 'x'] ++ main_lang ⟨"src/lib/foo.c".toList, 1, false⟩ ++ [' ']
          ++ (main_args_before ["-c".toList, "src/lib/foo.c".toList]
            ⟨"src/lib/foo.c".toList, 1, false⟩).buffer ++ [' ']
          ++ ((main_after_loop ["-c".toList, "src/lib/foo.c".toList]
            ⟨"src/lib/foo.c".toList, 1, false⟩).1.buffer ++ ['-', 'I'] ++ dir)
          ++ (if main_compile_only ["-c".toList, "src/lib/foo.c".toList]
                ⟨"src/lib/foo.c".toList, 1, false⟩ = true ∧
                (main_output ["-c".toList, "src/lib/foo.c".toList]).aout = true
              then [' ', '-', 'o', ' '] ++ "src/lib/foo.c".toList ++ ['.', 'o', ' ', '-']
              else [' ', '-']) :=
  main_include_flag "P".toList "gcc".toList ["-c".toList, "src/lib/foo.c".toList]
    ⟨"src/lib/foo.c".toList, 1, false⟩ (by decide) (by decide)

/-! ## `cmd_sanitize` -/

theorem cmd_sanitize_copy_of_count (cmd : CStr) (h : cmd.count (Char.ofNat 34) = 0) :
    cmd_sanitize_copy cmd = cmd := by
  induction cmd with
  | nil => rfl
  | cons c cmd ih =>
    rw [List.count_cons] at h
    have hc : ¬ c = Char.ofNat 34 := by
      intro hc
      simp [hc] at h
    have h0 : cmd.count (Char.ofNat 34) = 0 := by omega
    rw [cmd_sanitize_copy, if_neg hc, ih h0]

theorem cmd_sanitize_eq_copy (cmd : CStr) : cmd_sanitize cmd = cmd_sanitize_copy cmd := by
  unfold cmd_sanitize
  split
  · rename_i h
    exact (cmd_sanitize_copy_of_count cmd h).symm
  · rfl

theorem cmd_sanitize_copy_eq_escape (cmd : CStr) :
    cmd_sanitize_copy cmd = escape_quotes cmd := by
  induction cmd with
  | nil => rfl
  | cons c cmd ih =>
    rw [cmd_sanitize_copy, escape_quotes, List.flatMap_cons]
    rw [escape_quotes] at ih
    by_cases hc : c = Char.ofNat 34
    · rw [if_pos hc, if_pos hc, ih, hc]
      rfl
    · rw [if_neg hc, if_neg hc, ih]
      rfl

theorem cmd_sanitize_copy_length (cmd : CStr) :
    (cmd_sanitize_copy cmd).length = cmd.length + cmd.count (Char.ofNat 34) := by
  induction cmd with
  | nil => rfl
  | cons c cmd ih =>
    rw [cmd_sanitize_copy, List.count_cons]
    by_cases hc : c = Char.ofNat 34
    · rw [if_pos hc]
      simp only [List.length_cons, ih, hc, beq_self_eq_true, if_true]
      omega
    · rw [if_neg hc]
      have hb : (c == Char.ofNat 34) = false := by simpa using hc
      simp only [List.length_cons, ih, hb]
      simp
      omega

theorem cmd_sanitize_copy_head (cmd : CStr) :
    (cmd_sanitize_copy cmd).head? ≠ some (Char.ofNat 34) := by
  cases cmd with
  | nil => simp [cmd_sanitize_copy]
  | cons c cmd =>
    rw [cmd_sanitize_copy]
    by_cases hc : c = Char.ofNat 34
    · rw [if_pos hc]
      simp only [List.head?_cons, ne_eq, Option.some.injEq]
      decide
    · rw [if_neg hc]
      simpa using hc

theorem unescape_cmd_sanitize_copy (cmd : CStr) :
    unescape_quotes (cmd_sanitize_copy cmd) = cmd := by
  induction cmd with
  | nil => rfl
  | cons c cmd ih =>
    rw [cmd_sanitize_copy]
    by_cases hc : c = Char.ofNat 34
    · rw [if_pos hc, unescape_quotes, if_pos ⟨rfl, hc⟩, ih]
    · rw [if_neg hc]
      have hh := cmd_sanitize_copy_head cmd
      cases hs : cmd_sanitize_copy cmd with
      | nil =>
        rw [hs] at ih
        rw [← ih]
        rfl
      | cons d s =>
        rw [hs] at hh ih
        have hd : ¬ d = Char.ofNat 34 := by simpa using hh
        rw [unescape_quotes, if_neg (fun h => hd h.2), ih]

theorem cmd_sanitize_copy_quote (cmd : CStr) :
    ∀ pre post, cmd_sanitize_copy cmd = pre ++ Char.ofNat 34 :: post →
      ∃ front, pre = front ++ [Char.ofNat 92] := by
  induction cmd with
  | nil =>
    intro pre post h
    simp [cmd_sanitize_copy] at h
  | cons c cmd ih =>
    intro pre post h
    rw [cmd_sanitize_copy] at h
    by_cases hc : c = Char.ofNat 34
    · rw [if_pos hc] at h
      cases pre with
      | nil =>
        simp only [List.nil_append, List.cons.injEq] at h
        exact absurd h.1 (by decide)
      | cons x pre =>
        cases pre with
        | nil =>
          simp only [List.cons_append, List.nil_append, List.cons.injEq] at h
          exact ⟨[], by simp [← h.1]⟩
        | cons y pre =>
          simp only [List.cons_append, List.cons.injEq] at h
          obtain ⟨front, hf⟩ := ih pre post h.2.2
          exact ⟨x :: y :: front, by simp [hf]⟩
    · rw [if_neg hc] at h
      cases pre with
      | nil =>
        simp only [List.nil_append, List.cons.injEq] at h
        exact absurd h.1 hc
      | cons x pre =>
        simp only [List.cons_append, List.cons.injEq] at h
        obtain ⟨front, hf⟩ := ih pre post h.2
        exact ⟨x :: front, by simp [hf]⟩

/-! ## `lcc_compiler_from_argv` -/

theorem strchr_isSome (c : Char) : ∀ (s : CStr), (strchr s c).isSome = true ↔ c ∈ s := by
  intro s
  induction s with
  | nil => simp [strchr]
  | cons x s ih =>
    rw [strchr]
    by_cases hx : x = c
    · simp [hx]
    · have hx2 : ¬ c = x := fun h => hx h.symm
      rw [if_neg hx]
      simp only [Option.isSome_map', List.mem_cons, hx2, false_or]
      exact ih

theorem strchr_take (c : Char) :
    ∀ (s : CStr) (k : Nat), strchr s c = some k →
      s.take k = s.takeWhile (fun x => decide (x ≠ c)) := by
  intro s
  induction s with
  | nil => intro k h; simp [strchr] at h
  | cons x s ih =>
    intro k h
    rw [strchr] at h
    by_cases hx : x = c
    · rw [if_pos hx] at h
      simp only [Option.some.injEq] at h
      subst h
      simp [hx]
    · rw [if_neg hx] at h
      cases hs : strchr s c with
      | none => rw [hs] at h; simp at h
      | some j =>
        rw [hs] at h
        simp only [Option.map_some', Option.some.injEq] at h
        subst h
        rw [List.take_succ_cons, ih j hs, List.takeWhile_cons_of_pos (by simpa using hx)]

theorem lcc_compiler_scan_loop_spec (argv : List CStr) (c : Char) :
    ∀ (n i len : Nat),
      ((lcc_compiler_scan_loop argv c n i len).end_index = 0 ∧
          ∀ j, i ≤ j → j < i + n → c ∉ argv.getD j []) ∨
        (i ≤ (lcc_compiler_scan_loop argv c n i len).end_index ∧
          (lcc_compiler_scan_loop argv c n i len).end_index < i + n ∧
          c ∈ argv.getD (lcc_compiler_scan_loop argv c n i len).end_index [] ∧
          (lcc_compiler_scan_loop argv c n i len).last =
            argv.getD (lcc_compiler_scan_loop argv c n i len).end_index [] ∧
          ∀ j, i ≤ j → j < (lcc_compiler_scan_loop argv c n i len).end_index →
            c ∉ argv.getD j []) := by
  intro n
  induction n with
  | zero =>
    intro i len
    left
    refine ⟨rfl, fun j h1 h2 => ?_⟩
    omega
  | succ n ih =>
    intro i len
    rw [lcc_compiler_scan_loop]
    by_cases hc : (strchr (argv.getD i []) c).isSome = true
    · rw [if_pos hc]
      right
      refine ⟨le_refl _, by simp only; omega, (strchr_isSome c _).mp hc, rfl, ?_⟩
      intro j h1 h2
      simp only at h2
      omega
    · rw [if_neg hc]
      have hni : c ∉ argv.getD i [] := fun h => hc ((strchr_isSome c _).mpr h)
      rcases ih (i + 1) (len + (argv.getD i []).length) with ⟨h1, h2⟩ | ⟨h1, h2, h3, h4, h5⟩
      · left
        refine ⟨h1, fun j h3 h4 => ?_⟩
        by_cases hj : j = i
        · rw [hj]; exact hni
        · exact h2 j (by omega) (by omega)
      · right
        refine ⟨by omega, by omega, h3, h4, fun j h6 h7 => ?_⟩
        by_cases hj : j = i
        · rw [hj]; exact hni
        · exact h5 j (by omega) h7

theorem lcc_compiler_scan_found {argv : List CStr} {c : Char} {e : Nat}
    (he1 : 1 ≤ e) (he2 : e < argv.length) (hin : c ∈ argv.getD e [])
    (hmin : ∀ j, 1 ≤ j → j < e → c ∉ argv.getD j []) :
    (lcc_compiler_scan argv c).end_index = e ∧
      (lcc_compiler_scan argv c).last = argv.getD e [] := by
  unfold lcc_compiler_scan
  rcases lcc_compiler_scan_loop_spec argv c (argv.length - 1) 1 (argv.getD 0 []).length with
    ⟨_, h2⟩ | ⟨h1, h2, h3, h4, h5⟩
  · exact absurd hin (h2 e he1 (by omega))
  · have hle : (lcc_compiler_scan_loop argv c (argv.length - 1) 1
        (argv.getD 0 []).length).end_index = e := by
      by_contra hne
      rcases Nat.lt_or_gt_of_ne hne with hlt | hgt
      · exact hmin _ h1 hlt h3
      · exact h5 e he1 hgt hin
    rw [hle] at h4
    exact ⟨hle, h4⟩

theorem lcc_compiler_scan_none_iff (argv : List CStr) (c : Char) :
    (lcc_compiler_scan argv c).end_index = 0 ↔
      ∀ j, 1 ≤ j → j < argv.length → c ∉ argv.getD j [] := by
  unfold lcc_compiler_scan
  rcases lcc_compiler_scan_loop_spec argv c (argv.length - 1) 1 (argv.getD 0 []).length with
    ⟨h1, h2⟩ | ⟨h1, h2, h3, _, _⟩
  · refine ⟨fun _ j hj1 hj2 => h2 j hj1 (by omega), fun _ => h1⟩
  · constructor
    · intro h0
      omega
    · intro hall
      exact absurd h3 (hall _ h1 (by omega))

theorem lcc_compiler_join_eq (argv : List CStr) :
    ∀ (n i : Nat) (cc : CStr), i + n ≤ argv.length →
      lcc_compiler_join argv n i cc = cc ++ spaced ((argv.drop i).take n) := by
  intro n
  induction n with
  | zero => intro i cc _; simp [lcc_compiler_join, spaced_nil]
  | succ n ih =>
    intro i cc h
    have hi : i < argv.length := by omega
    rw [lcc_compiler_join, ih (i + 1) _ (by omega), List.drop_eq_getElem_cons hi,
      List.take_succ_cons, List.getD_eq_getElem _ _ hi, spaced_cons]
    simp

theorem unwords_concat (toks : List CStr) (t : CStr) :
    unwords (toks ++ [t]) = spaced toks ++ t := by
  induction toks with
  | nil => rfl
  | cons u toks ih =>
    cases toks with
    | nil => simp [unwords, spaced]
    | cons v toks =>
      simp only [List.cons_append] at ih ⊢
      rw [unwords, ih]
      simp [spaced_cons]

theorem unwords_cons_of_ne_nil (t : CStr) (toks : List CStr) (h : toks ≠ []) :
    unwords (t :: toks) = t ++ ' ' :: unwords toks := by
  cases toks with
  | nil => exact absurd rfl h
  | cons u toks => rfl

/-! ## Adjacent spaces -/

theorem double_space_of_not_mem (t : CStr) (h : ' ' ∉ t) : double_space t = false := by
  induction t with
  | nil => rfl
  | cons c t ih =>
    have hc : ¬ c = ' ' := fun hc => h (by simp [hc])
    have ht : ' ' ∉ t := fun hm => h (List.mem_cons_of_mem _ hm)
    simp [double_space, hc, ih ht]

theorem phrase_ok_of_word (t : CStr) (h : t ≠ [] ∧ ' ' ∉ t) : phrase_ok t := by
  obtain ⟨h1, h2⟩ := h
  refine ⟨h1, ?_, ?_, double_space_of_not_mem t h2⟩
  · intro hh
    exact h2 (List.mem_of_mem_head? hh)
  · intro hl
    exact h2 (List.mem_of_getLast?_eq_some hl)

theorem double_space_join (r : CStr) (hr1 : r.head? ≠ some ' ')
    (hr2 : double_space r = false) :
    ∀ (p : CStr), p.getLast? ≠ some ' ' → double_space p = false →
      double_space (p ++ ' ' :: r) = false := by
  intro p
  induction p with
  | nil =>
    intro _ _
    have : (r.head? == some ' ') = false := by simpa using hr1
    simp [double_space, hr2, this]
  | cons c p ih =>
    intro hl hd
    rw [double_space] at hd
    simp only [Bool.or_eq_false_iff] at hd
    obtain ⟨hd1, hd2⟩ := hd
    rw [List.cons_append, double_space]
    cases p with
    | nil =>
      have hc : ¬ c = ' ' := by simpa using hl
      have := ih (by simp) hd2
      simp only [List.nil_append] at this ⊢
      simp [hc, this]
    | cons d p =>
      have hl2 : (d :: p).getLast? ≠ some ' ' := by
        rwa [List.getLast?_cons_cons] at hl
      have := ih hl2 hd2
      rw [this]
      simpa using hd1

theorem phrase_ok_join {p q : CStr} (hp : phrase_ok p) (hq : phrase_ok q) :
    phrase_ok (p ++ ' ' :: q) := by
  obtain ⟨p1, p2, p3, p4⟩ := hp
  obtain ⟨q1, q2, q3, q4⟩ := hq
  refine ⟨by simp, ?_, ?_, double_space_join q q2 q4 p p3 p4⟩
  · cases p with
    | nil => exact absurd rfl p1
    | cons c p => simpa using p2
  · have e : p ++ ' ' :: q = (p ++ [' ']) ++ q := by simp
    rw [e, List.getLast?_append_of_ne_nil _ q1]
    exact q3

theorem phrase_ok_unwords :
    ∀ (l : List CStr), l ≠ [] → (∀ p ∈ l, phrase_ok p) → phrase_ok (unwords l) := by
  intro l
  induction l with
  | nil => intro h _; exact absurd rfl h
  | cons t l ih =>
    intro _ h
    cases l with
    | nil => exact h t (List.mem_cons_self _ _)
    | cons u l =>
      rw [unwords]
      exact phrase_ok_join (h t (List.mem_cons_self _ _))
        (ih (by simp) (fun p hp => h p (List.mem_cons_of_mem _ hp)))

theorem mem_of_mem_arg_tokens {argv : List CStr} {skip lo n : Nat} {t : CStr}
    (hn : lo + n ≤ argv.length) (h : t ∈ arg_tokens argv skip lo n) : t ∈ argv := by
  obtain ⟨i, _, h2, _, h4⟩ := (mem_arg_tokens _ _ _ _ _).mp h
  have hi : i < argv.length := by omega
  rw [List.getD_eq_getElem _ _ hi] at h4
  rw [← h4]
  exact List.getElem_mem _

theorem srcdir_flag_word (source : lcc_source_t) (h : source.file ≠ [] ∧ ' ' ∉ source.file) :
    ∀ t ∈ srcdir_flag source, t ≠ [] ∧ ' ' ∉ t := by
  intro t ht
  unfold srcdir_flag at ht
  cases hr : strrchr source.file '/' with
  | none => rw [hr] at ht; simp at ht
  | some dirsep =>
    rw [hr] at ht
    simp only [List.mem_singleton] at ht
    subst ht
    refine ⟨by simp, ?_⟩
    intro hm
    simp only [List.cons_append, List.nil_append, List.mem_cons] at hm
    rcases hm with hm | hm | hm
    · exact absurd hm (by decide)
    · exact absurd hm (by decide)
    · exact h.2 (List.mem_of_mem_take hm)

theorem unwords_eq_nil {toks : List CStr} (ht : ∀ t ∈ toks, t ≠ [])
    (h : unwords toks = []) : toks = [] := by
  cases toks with
  | nil => rfl
  | cons t toks =>
    exact absurd h (unwords_ne_nil t toks (ht t (List.mem_cons_self _ _)))

/-! ## The compiler specification as a whole -/

theorem lcc_compiler_from_argv_quoted_eq (arg0 : CStr) (rest : List CStr) (q : Char)
    (hq : q = dquote ∨ q = squote) (h0 : arg0.head? = some q) :
    lcc_compiler_from_argv (arg0 :: rest) =
      if (lcc_compiler_scan (arg0 :: rest) q).end_index = 0 then (none, arg0 :: rest)
      else
        (some (lcc_compiler_join (arg0 :: rest)
            ((lcc_compiler_scan (arg0 :: rest) q).end_index - 1) 1 (arg0.drop 1 ++ [' '])
          ++ (lcc_compiler_scan (arg0 :: rest) q).last.take
            ((strchr (lcc_compiler_scan (arg0 :: rest) q).last q).getD 0)),
          (arg0 :: rest).drop (lcc_compiler_scan (arg0 :: rest) q).end_index) := by
  have hcond : arg0.head? = some dquote ∨ arg0.head? = some squote := by
    rcases hq with h | h
    · left; rw [h0, h]
    · right; rw [h0, h]
  have hd : arg0.headD dquote = q := by
    cases arg0 with
    | nil => simp at h0
    | cons c s => simpa using h0
  simp only [lcc_compiler_from_argv, if_pos hcond, hd]

theorem lcc_compiler_from_argv_unquoted (arg0 : CStr) (rest : List CStr)
    (h1 : arg0.head? ≠ some dquote) (h2 : arg0.head? ≠ some squote) :
    lcc_compiler_from_argv (arg0 :: rest) = (some arg0, arg0 :: rest) := by
  have hcond : ¬ (arg0.head? = some dquote ∨ arg0.head? = some squote) := by
    intro h
    rcases h with h | h
    · exact h1 h
    · exact h2 h
  simp only [lcc_compiler_from_argv, if_neg hcond]

theorem lcc_compiler_from_argv_none (arg0 : CStr) (rest : List CStr) :
    (lcc_compiler_from_argv (arg0 :: rest)).1 = none ↔
      ∃ q, (q = dquote ∨ q = squote) ∧ arg0.head? = some q ∧
        ∀ j, 1 ≤ j → j < (arg0 :: rest).length → q ∉ (arg0 :: rest).getD j [] := by
  constructor
  · intro h
    by_cases h1 : arg0.head? = some dquote
    · refine ⟨dquote, Or.inl rfl, h1, ?_⟩
      rw [lcc_compiler_from_argv_quoted_eq arg0 rest dquote (Or.inl rfl) h1] at h
      split at h
      · rename_i he
        exact (lcc_compiler_scan_none_iff _ _).mp he
      · simp at h
    · by_cases h2 : arg0.head? = some squote
      · refine ⟨squote, Or.inr rfl, h2, ?_⟩
        rw [lcc_compiler_from_argv_quoted_eq arg0 rest squote (Or.inr rfl) h2] at h
        split at h
        · rename_i he
          exact (lcc_compiler_scan_none_iff _ _).mp he
        · simp at h
      · rw [lcc_compiler_from_argv_unquoted arg0 rest h1 h2] at h
        simp at h
  · intro ⟨q, hq, h0, hall⟩
    rw [lcc_compiler_from_argv_quoted_eq arg0 rest q hq h0,
      if_pos ((lcc_compiler_scan_none_iff _ _).mpr hall)]

theorem lcc_compiler_from_argv_unchanged (argv : List CStr)
    (h : (lcc_compiler_from_argv argv).1 = none) : (lcc_compiler_from_argv argv).2 = argv := by
  cases argv with
  | nil => rfl
  | cons arg0 rest =>
    obtain ⟨q, hq, h0, hall⟩ := (lcc_compiler_from_argv_none arg0 rest).mp h
    rw [lcc_compiler_from_argv_quoted_eq arg0 rest q hq h0,
      if_pos ((lcc_compiler_scan_none_iff _ _).mpr hall)]

theorem source_index_ne_output {argv : List CStr} {source : lcc_source_t} {o : lcc_output_t}
    (hs : lcc_source_find argv = some source)
    (ho : lcc_output_find argv { output := [], index := 0, aout := false } = some o) :
    source.index ≠ o.index ∧ argv.getD o.index [] = str_o ∧
      argv.getD (o.index + 1) [] = o.output ∧ o.index + 1 < argv.length := by
  obtain ⟨k, hfirst, hk1, hk⟩ := (lcc_output_find_some argv _ o).mp ho
  have hki : o.index = k := by rw [hk]
  obtain ⟨hsl, hsf, hse, _, _⟩ := lcc_source_find_some hs
  have hko : o.index < argv.length := by omega
  have hget : argv.getD o.index [] = str_o := by
    have := hfirst.1
    rw [← hki, List.getElem?_eq_getElem hko] at this
    rw [List.getD_eq_getElem _ _ hko]
    simpa using this
  refine ⟨?_, hget, by rw [hk], by omega⟩
  intro heq
  rw [List.getD_eq_getElem _ _ hko] at hget
  rw [heq, List.getElem?_eq_getElem hko] at hsf
  simp only [Option.some.injEq] at hsf
  rw [← hsf, hget] at hse
  revert hse
  decide

theorem main_shell_eq_unwords (lambdapp cc : CStr) (argv : List CStr) (source : lcc_source_t) :
    (main_shell lambdapp cc argv source).buffer =
      unwords ([lambdapp, source.file, ['|'], cc, ['-', 'x'] ++ main_lang source,
          (main_args_before argv source).buffer, (main_args_after argv source).buffer]
        ++ (if main_compile_only argv source = true ∧ (main_output argv).aout = true
            then [['-', 'o'], source.file ++ ['.', 'o']] else [])
        ++ [['-']]) := by
  unfold main_shell
  split
  · simp [lcc_string_appendf, lcc_string_init, unwords]
  · simp [lcc_string_appendf, lcc_string_init, unwords]

/-- C11 (as stated, refuted): for `clang -Wall foo.cpp -O2 -o foo` with
preprocessor `P` the before group is not `-Wall`, the after group is not `-O2`
and the composed command is not `P foo.cpp | clang -xc++ -Wall -O2 -I. -`. -/
theorem main_clang_example_differs :
    (main_args_before
        ["-Wall".toList, "foo.cpp".toList, "-O2".toList, "-o".toList, "foo".toList]
        ⟨"foo.cpp".toList, 1, true⟩).buffer ≠ "-Wall".toList ∧
      (main_args_after
        ["-Wall".toList, "foo.cpp".toList, "-O2".toList, "-o".toList, "foo".toList]
        ⟨"foo.cpp".toList, 1, true⟩).buffer ≠ "-O2".toList ∧
      (main_shell "P".toList "clang".toList
        ["-Wall".toList, "foo.cpp".toList, "-O2".toList, "-o".toList, "foo".toList]
        ⟨"foo.cpp".toList, 1, true⟩).buffer ≠
          "P foo.cpp | clang -xc++ -Wall -O2 -I. -".toList := by
  decide

/-- C11 (amended): for `clang -Wall foo.cpp -O2 -o foo` with preprocessor `P`
the source is `foo.cpp`, classified as C++, the output is `foo` and is
explicit, the before group is `-Wall -O2`, the after group is `-o foo`, and
the composed command is `P foo.cpp | clang -xc++ -Wall -O2 -o foo -`. -/
theorem main_clang_example :
    lcc_source_find ["-Wall".toList, "foo.cpp".toList, "-O2".toList, "-o".toList, "foo".toList]
        = some ⟨"foo.cpp".toList, 1, true⟩ ∧
      main_output ["-Wall".toList, "foo.cpp".toList, "-O2".toList, "-o".toList, "foo".toList]
        = ⟨"foo".toList, 3, false⟩ ∧
      (main_args_before
        ["-Wall".toList, "foo.cpp".toList, "-O2".toList, "-o".toList, "foo".toList]
        ⟨"foo.cpp".toList, 1, true⟩).buffer = "-Wall -O2".toList ∧
      (main_args_after
        ["-Wall".toList, "foo.cpp".toList, "-O2".toList, "-o".toList, "foo".toList]
        ⟨"foo.cpp".toList, 1, true⟩).buffer = "-o foo".toList ∧
      (main_shell "P".toList "clang".toList
        ["-Wall".toList, "foo.cpp".toList, "-O2".toList, "-o".toList, "foo".toList]
        ⟨"foo.cpp".toList, 1, true⟩).buffer =
          "P foo.cpp | clang -xc++ -Wall -O2 -o foo -".toList ∧
      main (some "P".toList) "-Wall".toList
        ["clang".toList, "-Wall".toList, "foo.cpp".toList, "-O2".toList, "-o".toList,
          "foo".toList] =
        lcc_exit.system "P foo.cpp | clang -xc++ -Wall -O2 -o foo -".toList := by
  decide

/-- C13: on a non-empty argument list `lcc_compiler_from_argv` fails exactly
when the first token begins with a double or single quote and no later token
holds that quote character, and it then leaves the argument list unchanged;
when the first token does not begin with a quote it returns exactly the first
token and leaves the argument list unchanged, so that the `argv++` of `main`
consumes exactly one token. -/
theorem lcc_compiler_from_argv_fails (argv : List CStr) (hne : argv ≠ []) :
    ((lcc_compiler_from_argv argv).1 = none ↔
        ∃ q, (q = dquote ∨ q = squote) ∧ (argv.getD 0 []).head? = some q ∧
          ∀ j, 1 ≤ j → j < argv.length → q ∉ argv.getD j []) ∧
      ((lcc_compiler_from_argv argv).1 = none → (lcc_compiler_from_argv argv).2 = argv) ∧
      ((argv.getD 0 []).head? ≠ some dquote → (argv.getD 0 []).head? ≠ some squote →
        lcc_compiler_from_argv argv = (some (argv.getD 0 []), argv) ∧
          (lcc_compiler_from_argv argv).2.drop 1 = argv.drop 1) := by
  cases argv with
  | nil => exact absurd rfl hne
  | cons arg0 rest =>
    refine ⟨lcc_compiler_from_argv_none arg0 rest, lcc_compiler_from_argv_unchanged _, ?_⟩
    intro h1 h2
    simp only [List.getD_cons_zero] at h1 h2
    rw [lcc_compiler_from_argv_unquoted arg0 rest h1 h2]
    exact ⟨rfl, rfl⟩

/-- C13, at `gcc -c foo.c` (succeeds with `gcc`) and at the unterminated
`"ccache clang -c foo.c` (fails). -/
theorem lcc_compiler_from_argv_fails_witness :
    (lcc_compiler_from_argv ["gcc".toList, "-c".toList, "foo.c".toList] =
        (some "gcc".toList, ["gcc".toList, "-c".toList, "foo.c".toList]) ∧
      (lcc_compiler_from_argv ["gcc".toList, "-c".toList, "foo.c".toList]).2.drop 1 =
        ["-c".toList, "foo.c".toList]) ∧
      (lcc_compiler_from_argv
        [dquote :: "ccache".toList, "clang".toList, "-c".toList, "foo.c".toList]).1 = none :=
  ⟨(lcc_compiler_from_argv_fails ["gcc".toList, "-c".toList, "foo.c".toList]
      (by decide)).2.2 (by decide) (by decide),
    (lcc_compiler_from_argv_fails
      [dquote :: "ccache".toList, "clang".toList, "-c".toList, "foo.c".toList]
      (by decide)).1.mpr ⟨dquote, Or.inl rfl, by decide, by decide⟩⟩

/-- C14: `cmd_sanitize(cmd)` is `cmd` with every double quote replaced by a
backslash and a double quote and every other character copied in order; it is
the identity on a string without double quotes, and its length is the length
of `cmd` plus the number of double quotes in `cmd`. -/
theorem cmd_sanitize_escapes (cmd : CStr) :
    cmd_sanitize cmd = escape_quotes cmd ∧
      (cmd.count (Char.ofNat 34) = 0 → cmd_sanitize cmd = cmd) ∧
      (cmd_sanitize cmd).length = cmd.length + cmd.count (Char.ofNat 34) := by
  refine ⟨?_, ?_, ?_⟩
  · rw [cmd_sanitize_eq_copy, cmd_sanitize_copy_eq_escape]
  · intro h
    rw [cmd_sanitize_eq_copy, cmd_sanitize_copy_of_count cmd h]
  · rw [cmd_sanitize_eq_copy, cmd_sanitize_copy_length]

/-- C14, at a command with a backslash and a single quote but no double
quote. -/
theorem cmd_sanitize_escapes_witness :
    cmd_sanitize ['a', Char.ofNat 92, 'b', Char.ofNat 39, 'c'] =
      ['a', Char.ofNat 92, 'b', Char.ofNat 39, 'c'] :=
  (cmd_sanitize_escapes ['a', Char.ofNat 92, 'b', Char.ofNat 39, 'c']).2.1 (by decide)

/-- C15 (the code departs from it): `main` tests the byte at index 12 of the
first argument, one past the `=` of `--lambda-pp=<path>` at index 11.  At
`--lambda-pp=/usr/bin/lambda-pp gcc foo.c` that byte is `/`, so the branch of
the space form is taken: the preprocessor becomes `gcc`, two arguments are
consumed and `main` returns 1.  The space form `--lambda-pp P gcc foo.c` takes
`P` and consumes two arguments, the byte read beyond the terminator of
`--lambda-pp` being the `P` that follows it in memory; with `=P` in that place
the other branch runs, the preprocessor is `=P` and one argument is
consumed. -/
theorem main_lambdapp_equals_form (found : Option CStr) (past : CStr) :
    c_byte "--lambda-pp=/usr/bin/lambda-pp".toList 11 past = '=' ∧
      c_byte "--lambda-pp=/usr/bin/lambda-pp".toList 12 past = '/' ∧
      main_lambdapp found past
        ["--lambda-pp=/usr/bin/lambda-pp".toList, "gcc".toList, "foo.c".toList] =
        (some "gcc".toList, ["foo.c".toList]) ∧
      main found past
        ["--lambda-pp=/usr/bin/lambda-pp".toList, "gcc".toList, "foo.c".toList] =
        lcc_exit.fail ∧
      main_lambdapp found "P".toList
        ["--lambda-pp".toList, "P".toList, "gcc".toList, "foo.c".toList] =
        (some "P".toList, ["gcc".toList, "foo.c".toList]) ∧
      main_lambdapp found "=P".toList
        ["--lambda-pp".toList, "=P".toList, "gcc".toList, "foo.c".toList] =
        (some "=P".toList, ["=P".toList, "gcc".toList, "foo.c".toList]) := by
  refine ⟨rfl, rfl, rfl, rfl, rfl, rfl⟩

/-- C16 (as stated, refuted): for `gcc foo.c` and for `gcc -c bar.c` with
preprocessor `P`, all tokens non-empty and free of spaces, the composed
command holds adjacent spaces where a group is empty. -/
theorem main_shell_adjacent_spaces :
    lcc_source_find ["foo.c".toList] = some ⟨"foo.c".toList, 0, false⟩ ∧
      (main_shell "P".toList "gcc".toList ["foo.c".toList] ⟨"foo.c".toList, 0, false⟩).buffer =
        "P foo.c | gcc -xc   -".toList ∧
      double_space (main_shell "P".toList "gcc".toList ["foo.c".toList]
        ⟨"foo.c".toList, 0, false⟩).buffer = true ∧
      lcc_source_find ["-c".toList, "bar.c".toList] = some ⟨"bar.c".toList, 1, false⟩ ∧
      (main_shell "P".toList "gcc".toList ["-c".toList, "bar.c".toList]
        ⟨"bar.c".toList, 1, false⟩).buffer = "P bar.c | gcc -xc -c  -o bar.c.o -".toList ∧
      double_space (main_shell "P".toList "gcc".toList ["-c".toList, "bar.c".toList]
        ⟨"bar.c".toList, 1, false⟩).buffer = true := by
  decide

/-- C16 (amended): with a located source, a preprocessor path, a compiler
string and argument tokens that are non-empty and free of spaces, and with
neither `args_before` nor `args_after` empty, the composed command holds no two
adjacent spaces. -/
theorem main_shell_single_spaces (lambdapp cc : CStr) (argv : List CStr)
    (source : lcc_source_t) (hs : lcc_source_find argv = some source)
    (hpp : lambdapp ≠ [] ∧ ' ' ∉ lambdapp) (hcc : cc ≠ [] ∧ ' ' ∉ cc)
    (ht : ∀ t ∈ argv, t ≠ [] ∧ ' ' ∉ t)
    (hb : (main_args_before argv source).buffer ≠ [])
    (ha : (main_args_after argv source).buffer ≠ []) :
    double_space (main_shell lambdapp cc argv source).buffer = false := by
  obtain ⟨hsl, hsf, _, _, _⟩ := lcc_source_find_some hs
  have hle := main_stop_le argv
  have hfile : source.file ≠ [] ∧ ' ' ∉ source.file :=
    ht _ (List.getElem?_mem hsf)
  have hbe := main_args_before_eq argv source
  have hae := main_args_after_eq argv source
  have hbp : phrase_ok (main_args_before argv source).buffer := by
    rw [hbe] at hb ⊢
    apply phrase_ok_unwords
    · intro h0
      rw [h0] at hb
      exact hb rfl
    · intro p hp
      exact phrase_ok_of_word p (ht p (mem_of_mem_arg_tokens (by omega) hp))
  have hap : phrase_ok (main_args_after argv source).buffer := by
    rw [hae] at ha ⊢
    apply phrase_ok_unwords
    · intro h0
      rw [h0] at ha
      exact ha rfl
    · intro p hp
      apply phrase_ok_of_word
      rcases List.mem_append.mp hp with h | h
      · exact ht p (mem_of_mem_arg_tokens (by omega) h)
      · exact srcdir_flag_word source hfile p h
  have hlang : phrase_ok (['-', 'x'] ++ main_lang source) := by
    apply phrase_ok_of_word
    unfold main_lang
    cases source.cpp <;> exact ⟨by simp, by decide⟩
  have hobj : phrase_ok (source.file ++ ['.', 'o']) := by
    apply phrase_ok_of_word
    refine ⟨by simp, ?_⟩
    intro hm
    rcases List.mem_append.mp hm with h | h
    · exact hfile.2 h
    · revert h
      decide
  rw [main_shell_eq_unwords]
  refine (phrase_ok_unwords _ (by simp) ?_).2.2.2
  intro p hp
  rcases List.mem_append.mp hp with h | h
  · rcases List.mem_append.mp h with h | h
    · simp only [List.mem_cons, List.mem_singleton, List.not_mem_nil, or_false] at h
      rcases h with h | h | h | h | h | h | h
      · rw [h]; exact phrase_ok_of_word _ hpp
      · rw [h]; exact phrase_ok_of_word _ hfile
      · rw [h]; exact phrase_ok_of_word _ ⟨by simp, by decide⟩
      · rw [h]; exact phrase_ok_of_word _ hcc
      · rw [h]; exact hlang
      · rw [h]; exact hbp
      · rw [h]; exact hap
    · split at h
      · simp only [List.mem_cons, List.mem_singleton, List.not_mem_nil, or_false] at h
        rcases h with h | h
        · rw [h]; exact phrase_ok_of_word _ ⟨by simp, by decide⟩
        · rw [h]; exact hobj
      · simp at h
  · simp only [List.mem_singleton] at h
    rw [h]; exact phrase_ok_of_word _ ⟨by simp, by decide⟩

/-- C16 (amended), at `-Wall foo.c -o foo` with preprocessor `P` and compiler
`gcc`. -/
theorem main_shell_single_spaces_witness :
    double_space (main_shell "P".toList "gcc".toList
      ["-Wall".toList, "foo.c".toList, "-o".toList, "foo".toList]
      ⟨"foo.c".toList, 1, false⟩).buffer = false :=
  main_shell_single_spaces "P".toList "gcc".toList
    ["-Wall".toList, "foo.c".toList, "-o".toList, "foo".toList] ⟨"foo.c".toList, 1, false⟩
    (by decide) (by decide) (by decide) (by decide) (by decide) (by decide)

/-- C18 (the code departs from it): for the four tokens `"a`, `b`, `c` and
`d"` the joined compiler string `a b c d` has 7 characters, while `len`, the
sum of the token lengths, is 6 and the buffer has `len + 1 = 7` bytes: the
text and its terminator need 8. -/
theorem lcc_compiler_from_argv_overflow :
    (lcc_compiler_from_argv
        [dquote :: "a".toList, "b".toList, "c".toList, "d".toList ++ [dquote]]).1 =
        some "a b c d".toList ∧
      (lcc_compiler_scan
        [dquote :: "a".toList, "b".toList, "c".toList, "d".toList ++ [dquote]] dquote).len
        = 6 ∧
      (lcc_compiler_scan
        [dquote :: "a".toList, "b".toList, "c".toList, "d".toList ++ [dquote]]
        dquote).end_index = 3 ∧
      ¬ ("a b c d".toList.length ≤
        (lcc_compiler_scan
          [dquote :: "a".toList, "b".toList, "c".toList, "d".toList ++ [dquote]] dquote).len)
      := by
  decide

/-- C19 (as stated, refuted): at `-o foo.c` the source `lcc_source_find`
selects is the token after `-o`, the output filename itself, and the composed
command does not hold the words `-o foo.c`. -/
theorem source_is_output_token :
    lcc_source_find ["-o".toList, "foo.c".toList] = some ⟨"foo.c".toList, 1, false⟩ ∧
      lcc_output_find ["-o".toList, "foo.c".toList] { output := [], index := 0, aout := false }
        = some ⟨"foo.c".toList, 0, false⟩ ∧
      (main_shell "P".toList "gcc".toList ["-o".toList, "foo.c".toList]
        ⟨"foo.c".toList, 1, false⟩).buffer = "P foo.c | gcc -xc  -o -".toList ∧
      ¬ ("-o foo.c".toList <:+:
        (main_shell "P".toList "gcc".toList ["-o".toList, "foo.c".toList]
          ⟨"foo.c".toList, 1, false⟩).buffer) := by
  decide

/-- C19 (amended): with a located source and an `-o <file>` pair found, the
source is never the `-o` token; it can be the output filename token, and when
it is not, `args_after` starts with the words `-o <file>` and the composed
command holds ` -o <file> `. -/
theorem source_index_ne_output_flag (lambdapp cc : CStr) (argv : List CStr)
    (source : lcc_source_t) (o : lcc_output_t)
    (hs : lcc_source_find argv = some source)
    (ho : lcc_output_find argv { output := [], index := 0, aout := false } = some o) :
    source.index ≠ o.index ∧
      (source.index ≠ o.index + 1 →
        (main_args_after argv source).buffer =
            unwords (str_o :: o.output ::
              (arg_tokens argv source.index (o.index + 2) (argv.length - (o.index + 2))
                ++ srcdir_flag source)) ∧
          ∃ pre post, (main_shell lambdapp cc argv source).buffer =
            pre ++ [' '] ++ str_o ++ [' '] ++ o.output ++ [' '] ++ post) := by
  obtain ⟨hne, hget, hget1, hlt⟩ := source_index_ne_output hs ho
  obtain ⟨hout, hstop, haout, _⟩ := main_output_of_some ho
  refine ⟨hne, fun hne1 => ?_⟩
  have hafter : (main_args_after argv source).buffer =
      unwords (str_o :: o.output ::
        (arg_tokens argv source.index (o.index + 2) (argv.length - (o.index + 2))
          ++ srcdir_flag source)) := by
    have e : argv.length - o.index = (argv.length - (o.index + 2)) + 1 + 1 := by omega
    rw [main_args_after_eq, hstop, e, arg_tokens_succ, if_neg (fun h => hne h.symm),
      arg_tokens_succ, if_neg (fun h => hne1 h.symm), hget, hget1]
    rfl
  refine ⟨hafter, ?_⟩
  have hn : ¬ (main_compile_only argv source = true ∧ (main_output argv).aout = true) := by
    intro ⟨_, h2⟩
    rw [hout, haout] at h2
    simp at h2
  rw [main_shell, if_neg hn, hafter]
  generalize arg_tokens argv source.index (o.index + 2) (argv.length - (o.index + 2))
    ++ srcdir_flag source = tail
  cases tail with
  | nil =>
    refine ⟨lambdapp ++ [' '] ++ source.file ++ [' ', '|', ' '] ++ cc ++ [' ', '-', 'x']
      ++ main_lang source ++ [' '] ++ (main_args_before argv source).buffer, ['-'], ?_⟩
    simp [lcc_string_appendf, lcc_string_init, unwords]
  | cons t tail =>
    refine ⟨lambdapp ++ [' '] ++ source.file ++ [' ', '|', ' '] ++ cc ++ [' ', '-', 'x']
      ++ main_lang source ++ [' '] ++ (main_args_before argv source).buffer,
      unwords (t :: tail) ++ [' ', '-'], ?_⟩
    simp [lcc_string_appendf, lcc_string_init, unwords]

/-- C19 (amended), at `-c foo.c -o foo.o`. -/
theorem source_index_ne_output_flag_witness :
    (1 : Nat) ≠ 2 ∧
      ∃ pre post, (main_shell "P".toList "gcc".toList
        ["-c".toList, "foo.c".toList, "-o".toList, "foo.o".toList]
        ⟨"foo.c".toList, 1, false⟩).buffer =
          pre ++ [' '] ++ str_o ++ [' '] ++ "foo.o".toList ++ [' '] ++ post :=
  ⟨(source_index_ne_output_flag "P".toList "gcc".toList
      ["-c".toList, "foo.c".toList, "-o".toList, "foo.o".toList]
      ⟨"foo.c".toList, 1, false⟩ ⟨"foo.o".toList, 2, false⟩ (by decide) (by decide)).1,
    ((source_index_ne_output_flag "P".toList "gcc".toList
      ["-c".toList, "foo.c".toList, "-o".toList, "foo.o".toList]
      ⟨"foo.c".toList, 1, false⟩ ⟨"foo.o".toList, 2, false⟩ (by decide) (by decide)).2
      (by decide)).2⟩

/-- C20: `cmd_sanitize` is reversible.  Every double quote of
`cmd_sanitize(s)` stands right after a backslash, deleting the backslash
before each double quote gives `s` back, and so `cmd_sanitize` is injective. -/
theorem cmd_sanitize_reversible (s : CStr) :
    (∀ pre post, cmd_sanitize s = pre ++ Char.ofNat 34 :: post →
        ∃ front, pre = front ++ [Char.ofNat 92]) ∧
      unescape_quotes (cmd_sanitize s) = s ∧
      Function.Injective cmd_sanitize := by
  refine ⟨?_, ?_, ?_⟩
  · intro pre post h
    rw [cmd_sanitize_eq_copy] at h
    exact cmd_sanitize_copy_quote s pre post h
  · rw [cmd_sanitize_eq_copy, unescape_cmd_sanitize_copy]
  · intro a b hab
    have := congrArg unescape_quotes hab
    rwa [cmd_sanitize_eq_copy, cmd_sanitize_eq_copy, unescape_cmd_sanitize_copy,
      unescape_cmd_sanitize_copy] at this

/-- C20, at the command `a"b`: the quote of the result follows a backslash. -/
theorem cmd_sanitize_reversible_witness :
    ∃ front, ['a', Char.ofNat 92] = front ++ [Char.ofNat 92] :=
  (cmd_sanitize_reversible ['a', Char.ofNat 34, 'b']).1 ['a', Char.ofNat 92] ['b']
    (by decide)

/-! ## Words of a text -/

theorem strchr_lt (c : Char) :
    ∀ (s : CStr) (k : Nat), strchr s c = some k → k < s.length := by
  intro s
  induction s with
  | nil => intro k h; simp [strchr] at h
  | cons x s ih =>
    intro k h
    rw [strchr] at h
    by_cases hx : x = c
    · rw [if_pos hx] at h
      simp only [Option.some.injEq] at h
      subst h
      simp
    · rw [if_neg hx] at h
      cases hs : strchr s c with
      | none => rw [hs] at h; simp at h
      | some j =>
        rw [hs] at h
        simp only [Option.map_some', Option.some.injEq] at h
        subst h
        have := ih j hs
        simp only [List.length_cons]
        omega

theorem spaced_length (toks : List CStr) :
    (spaced toks).length = (toks.map List.length).sum + toks.length := by
  induction toks with
  | nil => rfl
  | cons t toks ih =>
    rw [spaced_cons]
    simp only [List.length_append, List.length_cons, ih, List.map_cons, List.sum_cons]
    omega

theorem lcc_compiler_scan_loop_len (argv : List CStr) (c : Char) :
    ∀ (n i len e : Nat), i ≤ e → e < i + n → e < argv.length → c ∈ argv.getD e [] →
      (∀ j, i ≤ j → j < e → c ∉ argv.getD j []) →
      (lcc_compiler_scan_loop argv c n i len).len =
        len + (((argv.drop i).take (e + 1 - i)).map List.length).sum := by
  intro n
  induction n with
  | zero => intro i len e h1 h2; omega
  | succ n ih =>
    intro i len e h1 h2 h3 hin hmin
    have hi : i < argv.length := by omega
    rw [lcc_compiler_scan_loop]
    by_cases hc : (strchr (argv.getD i []) c).isSome = true
    · rw [if_pos hc]
      have hci : c ∈ argv.getD i [] := (strchr_isSome c _).mp hc
      have hei : e = i := by
        by_contra hne
        exact hmin i (le_refl _) (by omega) hci
      subst hei
      have e1 : e + 1 - e = 1 := by omega
      rw [e1, List.drop_eq_getElem_cons hi, List.getD_eq_getElem _ _ hi, List.take_succ_cons,
        List.take_zero]
      simp
    · rw [if_neg hc]
      have hni : c ∉ argv.getD i [] := fun h => hc ((strchr_isSome c _).mpr h)
      have hne : e ≠ i := by
        intro h
        rw [h] at hin
        exact hni hin
      rw [ih (i + 1) _ e (by omega) (by omega) h3 hin
        (fun j hj1 hj2 => hmin j (by omega) hj2)]
      have e1 : e + 1 - i = (e + 1 - (i + 1)) + 1 := by omega
      rw [e1, List.drop_eq_getElem_cons hi, List.take_succ_cons,
        List.getD_eq_getElem _ _ hi]
      simp only [List.map_cons, List.sum_cons]
      omega

theorem lcc_compiler_from_argv_text (arg0 : CStr) (rest : List CStr) (q : Char) (e : Nat)
    (hq : q = dquote ∨ q = squote) (h0 : arg0.head? = some q)
    (he1 : 1 ≤ e) (he2 : e < (arg0 :: rest).length)
    (hin : q ∈ (arg0 :: rest).getD e [])
    (hmin : ∀ j, 1 ≤ j → j < e → q ∉ (arg0 :: rest).getD j []) :
    lcc_compiler_from_argv (arg0 :: rest) =
      (some (unwords ([arg0.drop 1] ++ ((arg0 :: rest).drop 1).take (e - 1) ++
          [((arg0 :: rest).getD e []).takeWhile (fun c => decide (c ≠ q))])),
        (arg0 :: rest).drop e) := by
  obtain ⟨hend, hlast⟩ := lcc_compiler_scan_found he1 he2 hin hmin
  have hne : ¬ (lcc_compiler_scan (arg0 :: rest) q).end_index = 0 := by omega
  rw [lcc_compiler_from_argv_quoted_eq arg0 rest q hq h0, if_neg hne, hend, hlast]
  rw [lcc_compiler_join_eq _ _ _ _ (by omega)]
  obtain ⟨k, hk⟩ := Option.isSome_iff_exists.mp ((strchr_isSome q _).mpr hin)
  rw [hk, Option.getD_some, strchr_take q _ k hk]
  have e1 : [arg0.drop 1] ++ ((arg0 :: rest).drop 1).take (e - 1) ++
      [((arg0 :: rest).getD e []).takeWhile (fun c => decide (c ≠ q))] =
      arg0.drop 1 :: (((arg0 :: rest).drop 1).take (e - 1) ++
        [((arg0 :: rest).getD e []).takeWhile (fun c => decide (c ≠ q))]) := by
    simp
  rw [e1, unwords_cons_of_ne_nil _ _ (by simp), unwords_concat]
  simp

theorem lcc_compiler_overrun_iff (arg0 : CStr) (rest : List CStr) (q : Char) (e : Nat)
    (hq : q = dquote ∨ q = squote) (h0 : arg0.head? = some q)
    (he1 : 1 ≤ e) (he2 : e < (arg0 :: rest).length)
    (hin : q ∈ (arg0 :: rest).getD e [])
    (hmin : ∀ j, 1 ≤ j → j < e → q ∉ (arg0 :: rest).getD j []) :
    (lcc_compiler_overrun (arg0 :: rest) = false ↔
        e - 1 + (((arg0 :: rest).getD e []).takeWhile (fun c => decide (c ≠ q))).length ≤
          ((arg0 :: rest).getD e []).length) ∧
      (((arg0 :: rest).getD e []).takeWhile (fun c => decide (c ≠ q))).length <
        ((arg0 :: rest).getD e []).length := by
  obtain ⟨hend, hlast⟩ := lcc_compiler_scan_found he1 he2 hin hmin
  have hne : ¬ (lcc_compiler_scan (arg0 :: rest) q).end_index = 0 := by omega
  have hcond : arg0.head? = some dquote ∨ arg0.head? = some squote := by
    rcases hq with h | h
    · left; rw [h0, h]
    · right; rw [h0, h]
  have hd : arg0.headD dquote = q := by
    cases arg0 with
    | nil => simp at h0
    | cons c s => simpa using h0
  have ha0 : 1 ≤ arg0.length := by
    cases arg0 with
    | nil => simp at h0
    | cons c s => simp
  obtain ⟨k, hk⟩ := Option.isSome_iff_exists.mp ((strchr_isSome q _).mpr hin)
  have hklt := strchr_lt q _ k hk
  have hcut : (((arg0 :: rest).getD e []).takeWhile (fun c => decide (c ≠ q))).length = k := by
    rw [← strchr_take q _ k hk, List.length_take]
    omega
  have hlen : (lcc_compiler_scan (arg0 :: rest) q).len =
      arg0.length + ((((arg0 :: rest).drop 1).take (e - 1)).map List.length).sum
        + ((arg0 :: rest).getD e []).length := by
    unfold lcc_compiler_scan
    rw [lcc_compiler_scan_loop_len (arg0 :: rest) q _ 1 _ e he1 (by omega) he2 hin hmin]
    have hex : ∃ m, e = m + 1 := ⟨e - 1, by omega⟩
    obtain ⟨m, hm⟩ := hex
    have he3 : m < rest.length := by
      simp only [List.length_cons] at he2
      omega
    have hget : (arg0 :: rest).getD e [] = rest[m] := by
      rw [hm, List.getD_cons_succ, List.getD_eq_getElem _ _ he3]
    have e1 : e + 1 - 1 = m + 1 := by omega
    have e2 : e - 1 = m := by omega
    rw [e1, e2, hget]
    simp only [List.drop_succ_cons, List.drop_zero, List.getD_cons_zero]
    rw [List.take_succ, List.getElem?_eq_getElem he3]
    simp only [Option.toList_some, List.map_append, List.map_cons, List.map_nil,
      List.sum_append, List.sum_cons, List.sum_nil]
    omega
  have htext : ∀ cc, (lcc_compiler_from_argv (arg0 :: rest)).1 = some cc →
      cc.length = arg0.length - 1 + 1
        + (((((arg0 :: rest).drop 1).take (e - 1)).map List.length).sum + (e - 1)) + k := by
    intro cc hcc
    rw [lcc_compiler_from_argv_text arg0 rest q e hq h0 he1 he2 hin hmin] at hcc
    simp only [Option.some.injEq] at hcc
    have e1 : [arg0.drop 1] ++ ((arg0 :: rest).drop 1).take (e - 1) ++
        [((arg0 :: rest).getD e []).takeWhile (fun c => decide (c ≠ q))] =
        arg0.drop 1 :: (((arg0 :: rest).drop 1).take (e - 1) ++
          [((arg0 :: rest).getD e []).takeWhile (fun c => decide (c ≠ q))]) := by
      simp
    rw [e1, unwords_cons_of_ne_nil _ _ (by simp), unwords_concat] at hcc
    rw [← hcc]
    simp only [List.length_append, List.length_cons, List.length_drop, spaced_length, hcut,
      List.length_take]
    have he3 : e - 1 ≤ rest.length := by
      simp only [List.length_cons] at he2
      omega
    simp only [List.drop_succ_cons, List.drop_zero, List.length_take]
    omega
  refine ⟨?_, by rw [hcut]; exact hklt⟩
  rw [hcut]
  simp only [lcc_compiler_overrun, if_pos hcond, hd, if_neg hne]
  cases hcc : (lcc_compiler_from_argv (arg0 :: rest)).1 with
  | none =>
    rw [lcc_compiler_from_argv_text arg0 rest q e hq h0 he1 he2 hin hmin] at hcc
    simp at hcc
  | some cc =>
    have := htext cc hcc
    simp only [decide_eq_false_iff_not, gt_iff_lt, not_lt]
    rw [hlen, this]
    omega

/-- C12 (the code departs from it): when the first token begins with a quote
character `q` and `e ≥ 1` is the smallest index of a later token that holds
`q`, the text `lcc_compiler_from_argv` writes is the first token without its
opening quote, the tokens `1..e-1` and token `e` cut at its first `q`, joined
by single spaces, and the argument list is left at token `e`, so that with the
`argv++` of `main` exactly `e + 1` tokens are consumed.  That text fits the
buffer, and is what the program returns, exactly when `e - 1` is at most the
number of characters of token `e` from its quote on, which always holds for
`e ≤ 2`; for the four tokens `"a`, `b`, `c` and `d"` it does not fit and the
writes run beyond the buffer. -/
theorem lcc_compiler_from_argv_quoted (arg0 : CStr) (rest : List CStr) (q : Char) (e : Nat)
    (hq : q = dquote ∨ q = squote) (h0 : arg0.head? = some q)
    (he1 : 1 ≤ e) (he2 : e < (arg0 :: rest).length)
    (hin : q ∈ (arg0 :: rest).getD e [])
    (hmin : ∀ j, 1 ≤ j → j < e → q ∉ (arg0 :: rest).getD j []) :
    (lcc_compiler_overrun (arg0 :: rest) = false ↔
        e - 1 + (((arg0 :: rest).getD e []).takeWhile (fun c => decide (c ≠ q))).length ≤
          ((arg0 :: rest).getD e []).length) ∧
      (e ≤ 2 → lcc_compiler_overrun (arg0 :: rest) = false) ∧
      (lcc_compiler_overrun (arg0 :: rest) = false →
        (lcc_compiler_from_argv (arg0 :: rest)).1 =
            some (unwords ([arg0.drop 1] ++ ((arg0 :: rest).drop 1).take (e - 1) ++
              [((arg0 :: rest).getD e []).takeWhile (fun c => decide (c ≠ q))])) ∧
          (lcc_compiler_from_argv (arg0 :: rest)).2 = (arg0 :: rest).drop e ∧
          (lcc_compiler_from_argv (arg0 :: rest)).2.drop 1 = (arg0 :: rest).drop (e + 1)) ∧
      lcc_compiler_overrun
        [dquote :: "a".toList, "b".toList, "c".toList, "d".toList ++ [dquote]] = true := by
  obtain ⟨hiff, hcut⟩ := lcc_compiler_overrun_iff arg0 rest q e hq h0 he1 he2 hin hmin
  refine ⟨hiff, ?_, ?_, by decide⟩
  · intro h2
    apply hiff.mpr
    omega
  · intro _
    rw [lcc_compiler_from_argv_text arg0 rest q e hq h0 he1 he2 hin hmin]
    exact ⟨rfl, rfl, by simp⟩

/-- C12, at the two tokens `"ccache` and `clang"` followed by `-c foo.c`: the
text fits, the compiler is `ccache clang` and two tokens are consumed. -/
theorem lcc_compiler_from_argv_quoted_witness :
    (lcc_compiler_from_argv
        [dquote :: "ccache".toList, "clang".toList ++ [dquote], "-c".toList,
          "foo.c".toList]).1 = some "ccache clang".toList ∧
      (lcc_compiler_from_argv
        [dquote :: "ccache".toList, "clang".toList ++ [dquote], "-c".toList,
          "foo.c".toList]).2.drop 1 = ["-c".toList, "foo.c".toList] :=
  ⟨((lcc_compiler_from_argv_quoted (dquote :: "ccache".toList)
      ["clang".toList ++ [dquote], "-c".toList, "foo.c".toList] dquote 1
      (Or.inl rfl) (by decide) (by decide) (by decide) (by decide)
      (fun j h1 h2 => absurd h1 (by omega))).2.2.1 (by decide)).1.trans (by decide),
    ((lcc_compiler_from_argv_quoted (dquote :: "ccache".toList)
      ["clang".toList ++ [dquote], "-c".toList, "foo.c".toList] dquote 1
      (Or.inl rfl) (by decide) (by decide) (by decide) (by decide)
      (fun j h1 h2 => absurd h1 (by omega))).2.2.1 (by decide)).2.2⟩

end LambdaCC
